import Mathlib

/-!
Normalisation and graph assembly of `parsers`: a shallow embedding of the
decision logic of `composer/modules.go` and `pip/worker/pypi.go`, followed by
theorems about it.

Conventions of the embedding:

* a Go `string` is a Lean `String`, that is, its bytes are valid UTF-8 (as they
  are after JSON decoding); the functions of Go's `strings` package are
  re-defined on the character list by structural recursion, so that every
  definition below evaluates on concrete inputs;
* a Go `map[string]*T` is `Option (List (String × T))`: `none` is the nil map,
  `some l` an allocated map whose entries are read with `List.lookup` (a Go map
  is unordered, so entries are only ever observed through their key);
* a Go function that can hit a run-time fault (assignment into a nil map)
  returns an `Option`, `none` standing for the fault;
* a Go slice updated in place is passed in and returned; the maps of distinct
  elements of a slice are distinct objects.
-/

/-! ## Go's `strings` package -/

namespace strings

/-- Pieces of a character list around every occurrence of the separator character. -/
def splitChars (sep : Char) : List Char → List (List Char)
  | [] => [[]]
  | c :: cs =>
    if c = sep then [] :: splitChars sep cs
    else
      match splitChars sep cs with
      | [] => [[c]]
      | p :: ps => (c :: p) :: ps

/-- Go `strings.Split(s, sep)` for a separator of one character (the source only
splits on `"/"` and on `"v"`): the substrings between the separators, in order;
a string without the separator gives the one-element list of itself. -/
def Split (s : String) (sep : Char) : List String :=
  (splitChars sep s.data).map String.mk

/-- Whether the character list `sub` occurs as a contiguous block of the second list. -/
def containsChars (sub : List Char) : List Char → Bool
  | [] => sub.isPrefixOf []
  | c :: cs => sub.isPrefixOf (c :: cs) || containsChars sub cs

/-- Go `strings.Contains(s, substr)`. -/
def Contains (s substr : String) : Bool :=
  containsChars substr.data s.data

/-- Removal of every non-overlapping occurrence of `old`, scanning left to right;
the counter is the number of characters of a matched occurrence still to drop. -/
def removeChars (old : List Char) : Nat → List Char → List Char
  | _, [] => []
  | k + 1, _ :: cs => removeChars old k cs
  | 0, c :: cs =>
    if old.isPrefixOf (c :: cs) then removeChars old (old.length - 1) cs
    else c :: removeChars old 0 cs

/-- Go `strings.ReplaceAll(s, old, "")` for a non-empty `old` (the source only
replaces `".git"` by the empty string). -/
def ReplaceAllEmpty (s old : String) : String :=
  String.mk (removeChars old.data 0 s.data)

/-- Go `strings.ToLower(s)` on ASCII text: `A`..`Z` are mapped to `a`..`z`, every
other character is kept. (Go also lower-cases letters outside ASCII; the labels
handled here, package types, file names and interpreter tags, are ASCII.) -/
def ToLower (s : String) : String :=
  String.mk (s.data.map Char.toLower)

/-- Go `strings.EqualFold(s, t)` on ASCII text: equality up to the case of `A`..`Z`. -/
def EqualFold (s t : String) : Bool :=
  decide (ToLower s = ToLower t)

end strings

/-! ## Go's `crypto/sha1` and `encoding/hex` -/

namespace sha1

/-- The 32-bit mask. -/
def mask : Nat := 0xFFFFFFFF

/-- Rotation of a 32-bit word to the left by `k` bits. -/
def rotl (k x : Nat) : Nat := ((x <<< k) ||| (x >>> (32 - k))) &&& mask

/-- The number whose big-endian digits in base 256 are the given bytes. -/
def word (bs : List Nat) : Nat := bs.foldl (fun acc b => acc * 256 + b) 0

/-- The `k` low bytes of a number, most significant first. -/
def be (k n : Nat) : List Nat := (List.range k).reverse.map fun i => (n >>> (8 * i)) % 256

/-- The padded message: a `0x80` byte, zero bytes up to 56 modulo 64, and the
bit length on eight bytes. -/
def pad (msg : List Nat) : List Nat :=
  msg ++ [0x80] ++ List.replicate ((119 - msg.length % 64) % 64) 0 ++ be 8 (8 * msg.length)

/-- The first `n` consecutive blocks of `k` elements. -/
def chunks (k : Nat) : Nat → List Nat → List (List Nat)
  | 0, _ => []
  | n + 1, bs => bs.take k :: chunks k n (bs.drop k)

/-- Round `t` of the compression function on the five working words, with the
schedule word `w`. -/
def round (t : Nat) (s : Nat × Nat × Nat × Nat × Nat) (w : Nat) : Nat × Nat × Nat × Nat × Nat :=
  let (a, b, c, d, e) := s
  let f := if t < 20 then (b &&& c) ||| ((b ^^^ mask) &&& d)
    else if t < 40 then b ^^^ c ^^^ d
    else if t < 60 then (b &&& c) ||| (b &&& d) ||| (c &&& d)
    else b ^^^ c ^^^ d
  let k := if t < 20 then 0x5A827999 else if t < 40 then 0x6ED9EBA1
    else if t < 60 then 0x8F1BBCDC else 0xCA62C1D6
  ((rotl 5 a + f + e + k + w) &&& mask, a, rotl 30 b, c, d)

/-- The next `n` rounds from round `t` on; `win` holds the sixteen schedule
words from `t` on and slides by one word a round. -/
def rounds : Nat → Nat → List Nat → (Nat × Nat × Nat × Nat × Nat) →
    (Nat × Nat × Nat × Nat × Nat)
  | 0, _, _, s => s
  | n + 1, t, win, s =>
    let w := win.getD 0 0
    let next := rotl 1 (win.getD 13 0 ^^^ win.getD 8 0 ^^^ win.getD 2 0 ^^^ win.getD 0 0)
    rounds n (t + 1) (win.drop 1 ++ [next]) (round t s w)

/-- The compression of one 64-byte block into the chaining value. -/
def block (h : Nat × Nat × Nat × Nat × Nat) (blk : List Nat) : Nat × Nat × Nat × Nat × Nat :=
  let win := (chunks 4 16 blk).map word
  let r := rounds 80 0 win h
  ((h.1 + r.1) &&& mask, (h.2.1 + r.2.1) &&& mask, (h.2.2.1 + r.2.2.1) &&& mask,
    (h.2.2.2.1 + r.2.2.2.1) &&& mask, (h.2.2.2.2 + r.2.2.2.2) &&& mask)

/-- Go `h := sha1.New(); h.Write(msg); h.Sum(nil)`: the SHA-1 digest (FIPS 180-4)
of a byte string, twenty bytes. -/
def Sum (msg : List UInt8) : List UInt8 :=
  let p := pad (msg.map UInt8.toNat)
  let r := (chunks 64 (p.length / 64) p).foldl block
    (0x67452301, 0xEFCDAB89, 0x98BADCFE, 0x10325476, 0xC3D2E1F0)
  (be 4 r.1 ++ be 4 r.2.1 ++ be 4 r.2.2.1 ++ be 4 r.2.2.2.1 ++ be 4 r.2.2.2.2).map UInt8.ofNat

end sha1

namespace hex

/-- The table `"0123456789abcdef"` of `encoding/hex`. -/
def hextable : List Char := "0123456789abcdef".data

/-- Go `hex.EncodeToString`: two lower-case hexadecimal digits a byte, high
nibble first. -/
def EncodeToString (src : List UInt8) : String :=
  String.mk (src.flatMap fun b =>
    [hextable.getD (b.toNat / 16) '0', hextable.getD (b.toNat % 16) '0'])

end hex

/-- Go `[]byte(s)`: the UTF-8 bytes of a string. -/
def bytes (s : String) : List UInt8 :=
  s.data.flatMap String.utf8EncodeChar

/-! ## The `meta` package: the canonical entity

The declarations of `meta` are not part of the sources at hand; the types below
list the fields the embedded functions read or write. -/

namespace meta

/-- Go `meta.HashAlgorithm`, a string type. -/
abbrev HashAlgorithm := String

/-- Modelled from the spec: the algorithm tags of `meta`, whose declarations are
missing from the sources; each tag is taken to be the algorithm's name, so that
`SHA256` and `MD5` are the field names of `DigestTypes`. -/
def HashAlgoSHA512 : HashAlgorithm := "SHA512"
/-- Modelled from the spec: tag of SHA-384 (declaration missing from the sources). -/
def HashAlgoSHA384 : HashAlgorithm := "SHA384"
/-- Modelled from the spec: tag of SHA-256 (declaration missing from the sources). -/
def HashAlgoSHA256 : HashAlgorithm := "SHA256"
/-- Modelled from the spec: tag of SHA-224 (declaration missing from the sources). -/
def HashAlgoSHA224 : HashAlgorithm := "SHA224"
/-- Modelled from the spec: tag of SHA-1 (declaration missing from the sources). -/
def HashAlgoSHA1 : HashAlgorithm := "SHA1"
/-- Modelled from the spec: tag of MD6 (declaration missing from the sources). -/
def HashAlgoMD6 : HashAlgorithm := "MD6"
/-- Modelled from the spec: tag of MD5 (declaration missing from the sources). -/
def HashAlgoMD5 : HashAlgorithm := "MD5"
/-- Modelled from the spec: tag of MD4 (declaration missing from the sources). -/
def HashAlgoMD4 : HashAlgorithm := "MD4"
/-- Modelled from the spec: tag of MD2 (declaration missing from the sources). -/
def HashAlgoMD2 : HashAlgorithm := "MD2"

/-- Go `meta.Checksum`; `Content` is a byte slice. -/
structure Checksum where
  Algorithm : HashAlgorithm := ""
  Content : List UInt8 := []
  Value : String := ""
  deriving DecidableEq, Repr

/-- Go `meta.SupplierType`, a string type. -/
abbrev SupplierType := String

/-- Modelled from the spec: the supplier kind `Person` of `meta` (declaration
missing from the sources). -/
def Person : SupplierType := "Person"
/-- Modelled from the spec: the supplier kind `Organization` of `meta`
(declaration missing from the sources). -/
def Organization : SupplierType := "Organization"

/-- Go `meta.Supplier`; the field `Type` is written `Type'`. A field left out of
a Go struct literal holds the zero value, the empty string. -/
structure Supplier where
  Name : String := ""
  Email : String := ""
  Type' : SupplierType := ""
  deriving DecidableEq, Repr

/-- The fields of Go `meta.Package` other than the map `Packages`. The element
type of `OtherLicense` is not visible in the sources; the field is only ever
copied as a whole. -/
structure PackageFields where
  Name : String := ""
  Version : String := ""
  Path : String := ""
  LocalPath : String := ""
  Supplier : Supplier := {}
  PackageURL : String := ""
  Checksum : Checksum := {}
  PackageHomePage : String := ""
  LicenseConcluded : String := ""
  LicenseDeclared : String := ""
  CommentsLicense : String := ""
  OtherLicense : List String := []
  Copyright : String := ""
  PackageComment : String := ""
  Root : Bool := false
  PackageDownloadLocation : String := ""
  deriving DecidableEq, Repr

/-- Go `meta.Package`: its plain fields together with `Packages`, a
`map[string]*Package` (`none` is the nil map). -/
inductive Package where
  | mk (fields : PackageFields) (Packages : Option (List (String × Package)))

/-- The plain fields of a package. -/
def Package.fields : Package → PackageFields
  | .mk f _ => f

/-- The field `Packages` of a package. -/
def Package.Packages : Package → Option (List (String × Package))
  | .mk _ m => m

/-- The field `Name` of a package. -/
def Package.Name (p : Package) : String := p.fields.Name

/-- Go `_, ok := p.Packages[key]`: whether the map holds the key (a nil map
holds none). -/
def Package.hasKey (p : Package) (key : String) : Bool :=
  match p.Packages with
  | none => false
  | some m => (m.lookup key).isSome

/-- Go `p.Packages[key]`: the package stored under the key, if any. -/
def Package.child (p : Package) (key : String) : Option Package :=
  match p.Packages with
  | none => none
  | some m => m.lookup key

/-- Go `m[key] = value` on an allocated map: an existing entry for the key is
replaced, otherwise a new entry is added. -/
def mapSet {α : Type} (m : List (String × α)) (key : String) (value : α) : List (String × α) :=
  (key, value) :: m.filter (fun e => e.1 != key)

end meta

/-! ## `pip/worker/pypi.go` -/

namespace worker

/-- Go `DigestTypes`. -/
structure DigestTypes where
  MD5 : String := ""
  SHA256 : String := ""
  deriving DecidableEq, Repr

/-- Go `PypiPackageDistInfo`. -/
structure PypiPackageDistInfo where
  CommentText : String := ""
  Digests : DigestTypes := {}
  Downloads : Int := 0
  Filename : String := ""
  HasSig : Bool := false
  MD5Digest : String := ""
  PackageType : String := ""
  PythonVersion : String := ""
  RequiresPython : String := ""
  URL : String := ""
  Yanked : Bool := false
  YankedReason : String := ""
  deriving DecidableEq, Repr

/-- Go `PypiPackageInfo`. -/
structure PypiPackageInfo where
  Author : String := ""
  AuthorEmail : String := ""
  BugTrackURL : String := ""
  Classifiers : List String := []
  Description : String := ""
  DescriptionContentType : String := ""
  DocsURL : String := ""
  DownloadURL : String := ""
  HomePageURL : String := ""
  Keywords : String := ""
  License : String := ""
  Maintainer : String := ""
  MaintainerEmail : String := ""
  Name : String := ""
  PackageURL : String := ""
  Platform : String := ""
  ProjectURL : String := ""
  ReleaseURL : String := ""
  RequiresDist : List String := []
  RequiresPython : String := ""
  Summary : String := ""
  Version : String := ""
  Yanked : Bool := false
  YankedReason : String := ""
  deriving DecidableEq, Repr

/-- Go `PypiPackageData`. -/
structure PypiPackageData where
  Info : PypiPackageInfo := {}
  Urls : List PypiPackageDistInfo := []
  deriving DecidableEq, Repr

/-- The caller's wishes, Go `Metadata` of the pip worker. Its declaration is
missing from the sources; these are the three fields the selection reads. -/
structure Metadata where
  Generator : String := ""
  Tag : String := ""
  CPVersion : String := ""
  deriving DecidableEq, Repr

/-- Go `HashAlgoPickOrder`: the order in which a digest is picked. -/
def HashAlgoPickOrder : List meta.HashAlgorithm :=
  [meta.HashAlgoSHA512, meta.HashAlgoSHA384, meta.HashAlgoSHA256, meta.HashAlgoSHA224,
   meta.HashAlgoSHA1, meta.HashAlgoMD6, meta.HashAlgoMD5, meta.HashAlgoMD4,
   meta.HashAlgoMD2]

/-- Go `reflect.ValueOf(digests).FieldByName(name)`: the field of that name when
the struct type has one (`some`, whatever the field holds), the invalid value
(`none`) otherwise. `DigestTypes` has the two fields `MD5` and `SHA256`. -/
def FieldByName (digests : DigestTypes) (name : String) : Option String :=
  if name = "MD5" then some digests.MD5
  else if name = "SHA256" then some digests.SHA256
  else none

/-- The loop of `GetHighestOrderHashData` over the remaining pick order: the
first algorithm whose field lookup `IsValid` is returned with the field's
string; when the order is exhausted both results are the zero value. -/
def pickHash (digests : DigestTypes) : List meta.HashAlgorithm → meta.HashAlgorithm × String
  | [] => ("", "")
  | algo :: rest =>
    match FieldByName digests algo with
    | some f => (algo, f)
    | none => pickHash digests rest

/-- Go `GetHighestOrderHashData`. -/
def GetHighestOrderHashData (digests : DigestTypes) : meta.HashAlgorithm × String :=
  pickHash digests HashAlgoPickOrder

/-- Go `GetPackageBDistWheelInfo`. -/
def GetPackageBDistWheelInfo (distInfo : PypiPackageDistInfo) (generator tag cpversion : String) :
    PypiPackageDistInfo × Bool :=
  let PackageType := strings.EqualFold distInfo.PackageType generator
  let Tag := strings.Contains (strings.ToLower distInfo.Filename) (strings.ToLower tag)
  let CPVersion := strings.EqualFold distInfo.PythonVersion cpversion
  let Py2Py3 := strings.Contains (strings.ToLower "py2.py3") (strings.ToLower distInfo.PythonVersion)
  let status := if PackageType && Tag && (CPVersion || Py2Py3) then true else false
  (distInfo, status)

/-- Go `GetPackageSDistInfo`. -/
def GetPackageSDistInfo (distInfo : PypiPackageDistInfo) (generator : String) :
    PypiPackageDistInfo × Bool :=
  let PackageType := strings.EqualFold distInfo.PackageType generator
  let Source := strings.EqualFold distInfo.PythonVersion "source"
  let status := if PackageType && Source then true else false
  (distInfo, status)

/-- The loop of `GetChecksumeFromPyPiPackageData` over the remaining artifacts. -/
def checksumLoop (checksum : meta.Checksum) (metadata : Metadata) :
    List PypiPackageDistInfo → meta.Checksum
  | [] => checksum
  | packageDistInfo :: rest =>
    let r := GetPackageBDistWheelInfo packageDistInfo metadata.Generator metadata.Tag
      metadata.CPVersion
    if r.2 then
      let h := GetHighestOrderHashData r.1.Digests
      { checksum with Algorithm := h.1, Value := h.2 }
    else
      let r := GetPackageSDistInfo packageDistInfo "sdist"
      if r.2 then
        let h := GetHighestOrderHashData r.1.Digests
        { checksum with Algorithm := h.1, Value := h.2 }
      else checksumLoop checksum metadata rest

/-- Go `GetChecksumeFromPyPiPackageData`; the returned pointer is never nil, so
the result is the checksum it points to. -/
def GetChecksumeFromPyPiPackageData (pkgData : PypiPackageData) (metadata : Metadata) :
    meta.Checksum :=
  checksumLoop { Algorithm := meta.HashAlgoSHA1, Content := bytes pkgData.Info.Name }
    metadata pkgData.Urls

/-- The loop of `GetDownloadLocationFromPyPiPackageData` over the remaining artifacts. -/
def downloadLoop (metadata : Metadata) : List PypiPackageDistInfo → String
  | [] => ""
  | packageDistInfo :: rest =>
    let r := GetPackageBDistWheelInfo packageDistInfo metadata.Generator metadata.Tag
      metadata.CPVersion
    if r.2 then r.1.URL
    else
      let r := GetPackageSDistInfo packageDistInfo "sdist"
      if r.2 then r.1.URL
      else downloadLoop metadata rest

/-- Go `GetDownloadLocationFromPyPiPackageData`. -/
def GetDownloadLocationFromPyPiPackageData (pkgData : PypiPackageData) (metadata : Metadata) :
    String :=
  downloadLoop metadata pkgData.Urls

/-- An artifact satisfies the binary rule for the caller's wishes. -/
def binaryRule (metadata : Metadata) (d : PypiPackageDistInfo) : Bool :=
  (GetPackageBDistWheelInfo d metadata.Generator metadata.Tag metadata.CPVersion).2

/-- An artifact satisfies the source rule. -/
def sourceRule (d : PypiPackageDistInfo) : Bool :=
  (GetPackageSDistInfo d "sdist").2

/-- A release whose source archive is listed before its wheel. -/
def sdistFirst : PypiPackageData :=
  { Info := { Name := "demo" }
    Urls :=
      [ { PackageType := "sdist", PythonVersion := "source", Filename := "demo-1.0.tar.gz"
          URL := "https://files.example.org/demo-1.0.tar.gz"
          Digests := { MD5 := "0a", SHA256 := "0b" } },
        { PackageType := "bdist_wheel", PythonVersion := "cp39"
          Filename := "demo-1.0-cp39-cp39-manylinux1_x86_64.whl"
          URL := "https://files.example.org/demo-1.0-cp39-cp39-manylinux1_x86_64.whl"
          Digests := { MD5 := "1a", SHA256 := "1b" } } ] }

/-- The same release with the wheel listed first. -/
def wheelFirst : PypiPackageData :=
  { sdistFirst with Urls := sdistFirst.Urls.reverse }

/-- A caller asking for a CPython 3.9 wheel. -/
def cp39 : Metadata :=
  { Generator := "bdist_wheel", Tag := "cp39", CPVersion := "cp39" }

end worker

/-! ## `composer/modules.go` -/

namespace composer

open meta

/-- Go `TreeComponent`, a node of the requirement tree of `composer show --tree`.
Its declaration is missing from the sources; these are the two fields the
assembly reads. A nil and an empty `Requires` are both the empty list. -/
inductive TreeComponent where
  | mk (Name : String) (Requires : List TreeComponent)

/-- The field `Name` of a tree node. -/
def TreeComponent.Name : TreeComponent → String
  | .mk n _ => n

/-- The field `Requires` of a tree node. -/
def TreeComponent.Requires : TreeComponent → List TreeComponent
  | .mk _ rs => rs

/-- Go `getName`. -/
def getName (moduleName : String) : String :=
  let groupNames := strings.Split moduleName '/'
  if groupNames.length > 1 then groupNames.getD 1 "" else groupNames.getD 0 ""

/-- Go `normalizePackageVersion`. -/
def normalizePackageVersion (version : String) : String :=
  let parts := strings.Split version 'v'
  if parts.getD 0 "" ≠ "" then version
  else if parts.length > 1 then parts.getD 1 ""
  else parts.getD 0 ""

/-- The first loop of `addTreeComponentsToModule`, from position `idx` on:
every module is entered under its name into `moduleMap` and its position into
`moduleIndex`, a later module of the same name replacing an earlier one. -/
def indexModules : Nat → List Package → List (String × Package) × List (String × Nat) →
    List (String × Package) × List (String × Nat)
  | _, [], acc => acc
  | idx, module :: rest, acc =>
    indexModules (idx + 1) rest (mapSet acc.1 module.Name module, mapSet acc.2 module.Name idx)

/-- Go `addSubModuleToAModule`: a new package holding fifteen fields of
`subModule` is stored under its name in the map of `modules[moduleIndex]`.
Neither `PackageDownloadLocation` nor `Packages` is among the fields written, so
both hold their zero value in the stored package. Storing into a nil map, or
indexing past the slice, is a run-time fault (`none`). -/
def addSubModuleToAModule (modules : List Package) (moduleIndex : Nat) (subModule : Package) :
    Option (List Package) :=
  match modules.get? moduleIndex with
  | none => none
  | some (.mk _ none) => none
  | some (.mk f (some m)) =>
    some (modules.set moduleIndex (.mk f (some (mapSet m subModule.Name
      (.mk { Name := subModule.fields.Name
             Version := subModule.fields.Version
             Path := subModule.fields.Path
             LocalPath := subModule.fields.LocalPath
             Supplier := subModule.fields.Supplier
             PackageURL := subModule.fields.PackageURL
             Checksum := subModule.fields.Checksum
             PackageHomePage := subModule.fields.PackageHomePage
             LicenseConcluded := subModule.fields.LicenseConcluded
             LicenseDeclared := subModule.fields.LicenseDeclared
             CommentsLicense := subModule.fields.CommentsLicense
             OtherLicense := subModule.fields.OtherLicense
             Copyright := subModule.fields.Copyright
             PackageComment := subModule.fields.PackageComment
             Root := subModule.fields.Root } none)))))

mutual
/-- Go `addTreeComponentsToModule`. The slice `modules` is updated in place in
Go; here the updated slice is returned next to the boolean. Every module of the
slice is taken to own its map (as `convertLockPackageToModule` allocates them),
so that a store into one module's map is seen through that module only. -/
def addTreeComponentsToModule : TreeComponent → List Package → Option (List Package × Bool)
  | .mk Name requires, modules =>
    let maps := indexModules 0 modules ([], [])
    let rootLevelName := getName Name
    match maps.1.lookup rootLevelName with
    | none => some (modules, false)
    | some _ =>
      if requires.isEmpty then some (modules, false)
      else
        match addRequires maps.1 ((maps.2.lookup rootLevelName).getD 0) requires modules with
        | none => none
        | some modules' => some (modules', true)
/-- The second loop of `addTreeComponentsToModule` over the remaining child
requirements; `moduleMap` was filled on entry of the call and `rootIndex` is
`moduleIndex[rootLevelName]`. -/
def addRequires (moduleMap : List (String × Package)) (rootIndex : Nat) :
    List TreeComponent → List Package → Option (List Package)
  | [], modules => some modules
  | subTreeComponent :: rest, modules =>
    match moduleMap.lookup (getName subTreeComponent.Name) with
    | none => addRequires moduleMap rootIndex rest modules
    | some childLevelModule =>
      match addSubModuleToAModule modules rootIndex childLevelModule with
      | none => none
      | some modules1 =>
        match addTreeComponentsToModule subTreeComponent modules1 with
        | none => none
        | some r => addRequires moduleMap rootIndex rest r.1
end

/-- An entry of `authors` in `composer.lock` and `composer.json`. The
declaration is missing from the sources; these are the fields read. -/
structure Author where
  Name : String := ""
  Email : String := ""
  deriving DecidableEq, Repr

/-- The `source` object of a lock package (declaration missing from the sources). -/
structure LockPackageSource where
  URL : String := ""
  deriving DecidableEq, Repr

/-- The `dist` object of a lock package (declaration missing from the sources). -/
structure LockPackageDist where
  Shasum : String := ""
  deriving DecidableEq, Repr

/-- Go `LockPackage`, a package of `composer.lock`. Its declaration is missing
from the sources; these are the fields the embedded functions read. -/
structure LockPackage where
  Name : String := ""
  Version : String := ""
  Homepage : String := ""
  Source : LockPackageSource := {}
  Dist : LockPackageDist := {}
  Authors : List Author := []
  License : List String := []
  deriving DecidableEq, Repr

/-- The `repository` object of `package.json` (declaration missing from the sources). -/
structure PackageJSONRepository where
  URL : String := ""
  deriving DecidableEq, Repr

/-- Go `PackageJSONObject`, the decoded `package.json`; the zero value when the
file cannot be read or decoded. -/
structure PackageJSONObject where
  Repository : PackageJSONRepository := {}
  deriving DecidableEq, Repr

/-- Go `JSONObject`, the decoded `composer.json`; the zero value when the file
cannot be read or decoded. -/
structure JSONObject where
  Homepage : String := ""
  Authors : List Author := []
  deriving DecidableEq, Repr

/-- Go `rootPackageDownloadLocation`; `packageJSON` is what
`getPackageJSONFileData` returned. -/
def rootPackageDownloadLocation (packageJSON : PackageJSONObject) (defaultValue : String) :
    String :=
  let packageDownloadLocation := packageJSON.Repository.URL
  let packageDownloadLocation :=
    if packageDownloadLocation = "" then defaultValue else packageDownloadLocation
  let hasProtocol := strings.Contains packageDownloadLocation "http"
  let isGithub := strings.Contains packageDownloadLocation "github.com/"
  let hasGitSuffix := strings.Contains packageDownloadLocation ".git"
  let packageDownloadLocation :=
    if !hasProtocol then "https://" ++ packageDownloadLocation else packageDownloadLocation
  let packageDownloadLocation :=
    if isGithub && !hasGitSuffix then packageDownloadLocation ++ ".git"
    else packageDownloadLocation
  packageDownloadLocation

/-- Go `rootProjectSupplier`; `composerJSON` is what `getComposerJSONFileData`
returned. The second struct literal sets no `Type`. -/
def rootProjectSupplier (composerJSON : JSONObject) (projectName : String) : Supplier :=
  match composerJSON.Authors with
  | author :: _ => { Name := author.Name, Email := author.Email, Type' := Person }
  | [] => { Name := projectName, Email := "" }

/-- Go `getAuthorFromComposerLockFileDep`. -/
def getAuthorFromComposerLockFileDep (dep : LockPackage) : Supplier :=
  match dep.Authors with
  | [] => { Name := getName dep.Name, Type' := Organization }
  | author :: _ =>
    let pckAuthor : Supplier := { Name := author.Name, Email := author.Email, Type' := Person }
    if pckAuthor.Email = "" then { pckAuthor with Type' := Organization } else pckAuthor

/-- Go `genComposerURL`. -/
def genComposerURL (name : String) : String :=
  "github.com/" ++ name

/-- Go `genURLFromComposerPackage`. The helper `removeURLProtocol` is declared
outside the sources at hand and is taken as a parameter. -/
def genURLFromComposerPackage (removeURLProtocol : String → String) (dep : LockPackage) :
    String :=
  let homePage := dep.Homepage
  if homePage ≠ "" then removeURLProtocol homePage
  else
    let gitURL := removeURLProtocol dep.Source.URL
    let gitURL := strings.ReplaceAllEmpty gitURL ".git"
    if gitURL ≠ "" then gitURL
    else genComposerURL dep.Name

/-- Go `readCheckSum`. -/
def readCheckSum (content : String) : String :=
  if content = "" then ""
  else hex.EncodeToString (sha1.Sum (bytes content))

/-- Go `getCheckSumValue`. -/
def getCheckSumValue (removeURLProtocol : String → String) (module : LockPackage) : String :=
  let value := module.Dist.Shasum
  if value ≠ "" then value
  else readCheckSum (genURLFromComposerPackage removeURLProtocol module)

/-- Go `getLocalPath`. -/
def getLocalPath (module : LockPackage) : String :=
  "./vendor/" ++ module.Name

/-- Go `ProjectInfo`, the decoded output of `composer show --self`. Its
declaration is missing from the sources; these are the fields read. -/
structure ProjectInfo where
  Name : String := ""
  Versions : List String := []
  deriving DecidableEq, Repr

/-- The licence record `helper.GetLicenses` returns on success. Its declaration
is missing from the sources; these are the fields read. -/
structure LicensePkg where
  ID : String := ""
  ExtractedText : String := ""
  Comments : String := ""
  deriving DecidableEq, Repr

/-- The functions of `internal/helper` used by the conversion to a package. They
are declared outside the sources at hand and are taken as parameters;
`GetLicenses` gives `none` when it returns an error. -/
structure Helper where
  GetLicenses : String → Option LicensePkg
  BuildLicenseDeclared : String → String
  BuildLicenseConcluded : String → String
  GetCopyright : String → String

/-- Go `convertProjectInfoToModule`; `packageJSON` and `composerJSON` are what
`getPackageJSONFileData` and `getComposerJSONFileData` returned. Indexing an
empty `Versions` is a run-time fault (`none`). The struct literal sets no
`Packages`, so the map of the resulting package is nil. -/
def convertProjectInfoToModule (helper : Helper) (packageJSON : PackageJSONObject)
    (composerJSON : JSONObject) (project : ProjectInfo) (path : String) : Option Package :=
  match project.Versions with
  | [] => none
  | version0 :: _ =>
    let version := normalizePackageVersion version0
    let packageURL := genComposerURL project.Name
    let packageURL := if packageURL = "" then composerJSON.Homepage else packageURL
    let packageDownloadLocation := rootPackageDownloadLocation packageJSON packageURL
    let checkSumValue := readCheckSum packageURL
    let name := getName project.Name
    let supplier := rootProjectSupplier composerJSON name
    let module : PackageFields :=
      { Name := name
        Version := version
        Root := true
        PackageURL := packageURL
        Checksum := { Algorithm := HashAlgoSHA1, Value := checkSumValue }
        PackageDownloadLocation := packageDownloadLocation
        Supplier := supplier }
    let module : PackageFields :=
      match helper.GetLicenses path with
      | some licensePkg =>
        { module with
          LicenseDeclared := helper.BuildLicenseDeclared licensePkg.ID
          LicenseConcluded := helper.BuildLicenseConcluded licensePkg.ID
          Copyright := helper.GetCopyright licensePkg.ExtractedText
          CommentsLicense := licensePkg.Comments }
      | none => module
    some (.mk module none)

/-- The locator `rootPackageDownloadLocation` works on: the repository URL of
`package.json` when it is not empty, the default value otherwise. -/
def chosenLocator (packageJSON : PackageJSONObject) (defaultValue : String) : String :=
  if packageJSON.Repository.URL = "" then defaultValue else packageJSON.Repository.URL

/-- The locator with its protocol: unchanged when it contains `http`, with
`https://` put in front otherwise. -/
def protocolQualified (s : String) : String :=
  if strings.Contains s "http" then s else "https://" ++ s

/-- A helper that finds no licence. -/
def noLicense : Helper :=
  { GetLicenses := fun _ => none
    BuildLicenseDeclared := id
    BuildLicenseConcluded := id
    GetCopyright := id }

/-- A `composer.json` with a homepage and no authors. -/
def homepageOnly : JSONObject :=
  { Homepage := "https://example.org/pkg" }

/-- A root project `org/pkg`. -/
def orgPkg : ProjectInfo :=
  { Name := "org/pkg", Versions := ["v1.0.0"] }

/-! ### Vocabulary for the statements about the assembly -/

/-- The package `addSubModuleToAModule` stores for a module with plain fields
`g`: the same fields with an empty `PackageDownloadLocation`, and a nil
`Packages` map. -/
def attachedCopy (g : PackageFields) : Package :=
  .mk { g with PackageDownloadLocation := "" } none

/-- The plain fields of the last module named `key` in a flat collection given
by the plain fields of its modules. -/
def lastFields : List PackageFields → String → Option PackageFields
  | [], _ => none
  | g :: rest, key =>
    match lastFields rest key with
    | some h => some h
    | none => if g.Name = key then some g else none

/-- Every module of the flat collection has an allocated `Packages` map. -/
def AllInit (modules : List Package) : Prop :=
  ∀ p ∈ modules, p.Packages.isSome = true

instance (modules : List Package) : Decidable (AllInit modules) :=
  inferInstanceAs (Decidable (∀ p ∈ modules, p.Packages.isSome = true))

mutual
/-- The requirement tree without the child requirements, at any depth below the
root, whose normalized name is not among `names`; a removed child goes with its
whole subtree. -/
def prune (names : List String) : TreeComponent → TreeComponent
  | .mk Name requires => .mk Name (pruneList names requires)
/-- The child requirements whose normalized name is among `names`, each pruned
in turn. -/
def pruneList (names : List String) : List TreeComponent → List TreeComponent
  | [] => []
  | t :: rest =>
    if getName t.Name ∈ names then prune names t :: pruneList names rest
    else pruneList names rest
end

/-- One store of the assembly: in the map of some module of the collection, the
entry for `key` becomes the attached copy of the last module named `key`; `F`
lists the plain fields of the modules of the collection. -/
def Attach (F : List PackageFields) (modules modules' : List Package) : Prop :=
  ∃ (i : Nat) (f : PackageFields) (m : List (String × Package)) (key : String)
    (g : PackageFields),
    modules.get? i = some (.mk f (some m)) ∧ lastFields F key = some g ∧
      modules' = modules.set i (.mk f (some (mapSet m key (attachedCopy g))))

/-- The plain fields of a root project. -/
def rootFields : PackageFields :=
  { Name := "root", Version := "0.1.0", Root := true }

/-- The plain fields of a dependency `A` with a download location. -/
def aFields : PackageFields :=
  { Name := "A", Version := "1.0.0", PackageURL := "github.com/org/A"
    PackageDownloadLocation := "https://github.com/org/A.git" }

/-- The plain fields of a dependency `B`. -/
def bFields : PackageFields :=
  { Name := "B", Version := "2.0.0" }

/-- The flat collection `[root, A, B]`, every module with an empty map. -/
def flat3 : List Package :=
  [.mk rootFields (some []), .mk aFields (some []), .mk bFields (some [])]

/-- The requirement tree `root → [A → [B]]`. -/
def tree3 : TreeComponent :=
  .mk "root" [.mk "org/A" [.mk "org/B" []]]

end composer

/-! ## Facts about the string primitives -/

namespace strings

theorem containsChars_iff (sub l : List Char) : containsChars sub l = true ↔ sub <:+: l := by
  induction l with
  | nil =>
    simp only [containsChars, List.isPrefixOf_iff_prefix, List.prefix_nil, List.infix_nil]
  | cons c cs ih =>
    simp only [containsChars, Bool.or_eq_true, List.isPrefixOf_iff_prefix, ih,
      List.infix_cons_iff]

theorem Contains_iff (s substr : String) : Contains s substr = true ↔ substr.data <:+: s.data :=
  containsChars_iff _ _

theorem splitChars_ne_nil (sep : Char) (l : List Char) : splitChars sep l ≠ [] := by
  cases l with
  | nil => simp [splitChars]
  | cons c cs =>
    simp only [splitChars]
    split
    · simp
    · split <;> simp

theorem splitChars_head (sep : Char) (l : List Char) :
    (splitChars sep l).getD 0 [] = l.takeWhile (fun c => c ≠ sep) := by
  induction l with
  | nil => simp [splitChars]
  | cons c cs ih =>
    simp only [splitChars]
    by_cases h : c = sep
    · simp [h]
    · simp only [h, if_false]
      cases hs : splitChars sep cs with
      | nil => exact absurd hs (splitChars_ne_nil sep cs)
      | cons p ps =>
        rw [hs] at ih
        simp at ih
        simp [List.takeWhile, h, ih]

end strings

/-! ## The artifact selector and the checksum resolver of `pip/worker` -/

namespace worker

theorem pickOrder_eq (digests : DigestTypes) :
    GetHighestOrderHashData digests = (meta.HashAlgoSHA256, digests.SHA256) := by
  rfl

theorem loops_first_match (info : PypiPackageInfo) (metadata : Metadata)
    (pre post : List PypiPackageDistInfo) (u : PypiPackageDistInfo)
    (hpre : ∀ x ∈ pre, binaryRule metadata x = false ∧ sourceRule x = false)
    (hu : binaryRule metadata u = true ∨ sourceRule u = true) :
    GetDownloadLocationFromPyPiPackageData { Info := info, Urls := pre ++ u :: post } metadata
        = u.URL ∧
      GetChecksumeFromPyPiPackageData { Info := info, Urls := pre ++ u :: post } metadata
        = { Algorithm := (GetHighestOrderHashData u.Digests).1
            Content := bytes info.Name
            Value := (GetHighestOrderHashData u.Digests).2 } := by
  simp only [GetDownloadLocationFromPyPiPackageData, GetChecksumeFromPyPiPackageData]
  induction pre with
  | nil =>
    simp only [List.nil_append, downloadLoop, checksumLoop]
    have h1 : (GetPackageBDistWheelInfo u metadata.Generator metadata.Tag metadata.CPVersion).1
        = u := rfl
    have h2 : (GetPackageSDistInfo u "sdist").1 = u := rfl
    simp only [h1, h2]
    simp only [binaryRule, sourceRule] at hu
    rcases hu with hu | hu
    · simp [hu]
    · cases hb : (GetPackageBDistWheelInfo u metadata.Generator metadata.Tag
        metadata.CPVersion).2 <;> simp [hu]
  | cons x xs ih =>
    have hx := hpre x (List.mem_cons_self _ _)
    simp only [binaryRule, sourceRule] at hx
    simp only [List.cons_append, downloadLoop, checksumLoop, hx.1, hx.2]
    exact ih (fun y hy => hpre y (List.mem_cons_of_mem _ hy))

end worker

namespace worker

/-- C5, as stated, fails: in `sdistFirst` the second artifact satisfies the
binary rule for `cp39`, yet the download location and the digest are those of
the source archive listed first, which does not satisfy the binary rule; no
artifact satisfying the binary rule has that location or that digest. -/
theorem binary_not_preferred_when_listed_later :
    (∃ u ∈ sdistFirst.Urls, binaryRule cp39 u = true) ∧
      GetDownloadLocationFromPyPiPackageData sdistFirst cp39
        = "https://files.example.org/demo-1.0.tar.gz" ∧
      (GetChecksumeFromPyPiPackageData sdistFirst cp39).Value = "0b" ∧
      (¬ ∃ u ∈ sdistFirst.Urls, binaryRule cp39 u = true ∧
        GetDownloadLocationFromPyPiPackageData sdistFirst cp39 = u.URL) ∧
      (¬ ∃ u ∈ sdistFirst.Urls, binaryRule cp39 u = true ∧
        (GetChecksumeFromPyPiPackageData sdistFirst cp39).Value
          = (GetHighestOrderHashData u.Digests).2) := by
  decide

/-- C5, amended: both functions scan `Urls` once. If an artifact `u` satisfies
the binary rule and no artifact listed before it satisfies the binary or the
source rule, the download location is `u.URL` and the checksum takes its
algorithm and value from `u.Digests`. If no artifact satisfies the binary rule
and `u` is the first one satisfying the source rule, location and digest are
those of `u`. -/
theorem binary_preferred_unless_source_listed_earlier (info : PypiPackageInfo)
    (metadata : Metadata) (pre post : List PypiPackageDistInfo) (u : PypiPackageDistInfo) :
    (binaryRule metadata u = true →
      (∀ x ∈ pre, binaryRule metadata x = false ∧ sourceRule x = false) →
        GetDownloadLocationFromPyPiPackageData { Info := info, Urls := pre ++ u :: post }
            metadata = u.URL ∧
          GetChecksumeFromPyPiPackageData { Info := info, Urls := pre ++ u :: post } metadata
            = { Algorithm := (GetHighestOrderHashData u.Digests).1
                Content := bytes info.Name
                Value := (GetHighestOrderHashData u.Digests).2 }) ∧
    ((∀ x ∈ pre ++ u :: post, binaryRule metadata x = false) →
      sourceRule u = true → (∀ x ∈ pre, sourceRule x = false) →
        GetDownloadLocationFromPyPiPackageData { Info := info, Urls := pre ++ u :: post }
            metadata = u.URL ∧
          GetChecksumeFromPyPiPackageData { Info := info, Urls := pre ++ u :: post } metadata
            = { Algorithm := (GetHighestOrderHashData u.Digests).1
                Content := bytes info.Name
                Value := (GetHighestOrderHashData u.Digests).2 }) := by
  refine ⟨fun hb hpre => loops_first_match info metadata pre post u hpre (Or.inl hb), ?_⟩
  intro hnb hs hpre
  refine loops_first_match info metadata pre post u (fun x hx => ⟨?_, hpre x hx⟩) (Or.inr hs)
  exact hnb x (List.mem_append_left _ hx)

/-- Witness of C5 amended: in `wheelFirst` the wheel is listed first and is used;
in a listing of the source archive alone the source archive is used. -/
theorem binary_preferred_unless_source_listed_earlier_witness :
    GetDownloadLocationFromPyPiPackageData wheelFirst cp39
        = "https://files.example.org/demo-1.0-cp39-cp39-manylinux1_x86_64.whl" ∧
      GetDownloadLocationFromPyPiPackageData
          { Info := { Name := "demo" }
            Urls := [{ PackageType := "sdist", PythonVersion := "source", URL := "src" }] }
          cp39 = "src" :=
  ⟨((binary_preferred_unless_source_listed_earlier { Name := "demo" } cp39 []
      [{ PackageType := "sdist", PythonVersion := "source", Filename := "demo-1.0.tar.gz"
         URL := "https://files.example.org/demo-1.0.tar.gz"
         Digests := { MD5 := "0a", SHA256 := "0b" } }]
      { PackageType := "bdist_wheel", PythonVersion := "cp39"
        Filename := "demo-1.0-cp39-cp39-manylinux1_x86_64.whl"
        URL := "https://files.example.org/demo-1.0-cp39-cp39-manylinux1_x86_64.whl"
        Digests := { MD5 := "1a", SHA256 := "1b" } }).1 (by decide) (by decide)).1,
   ((binary_preferred_unless_source_listed_earlier { Name := "demo" } cp39 [] []
      { PackageType := "sdist", PythonVersion := "source", URL := "src" }).2
      (by decide) (by decide) (by decide)).1⟩

/-- C6: `GetPackageBDistWheelInfo` always hands back the artifact it was given,
and its status is true exactly when (a) the package type equals the generator
up to case, (b) the lower-cased tag occurs in the lower-cased file name, and
(c) the interpreter label equals `cpversion` up to case or its lower-cased form
occurs in the literal `py2.py3`. -/
theorem bdist_wheel_rule (d : PypiPackageDistInfo) (generator tag cpversion : String) :
    (GetPackageBDistWheelInfo d generator tag cpversion).1 = d ∧
      (GetPackageBDistWheelInfo d generator tag cpversion = (d, true) ↔
        strings.EqualFold d.PackageType generator = true ∧
          (strings.ToLower tag).data <:+: (strings.ToLower d.Filename).data ∧
          (strings.EqualFold d.PythonVersion cpversion = true ∨
            (strings.ToLower d.PythonVersion).data <:+: "py2.py3".data)) := by
  refine ⟨rfl, ?_⟩
  have hlit : strings.ToLower "py2.py3" = "py2.py3" := by decide
  rw [← strings.Contains_iff, ← strings.Contains_iff]
  simp only [GetPackageBDistWheelInfo, hlit, Prod.mk.injEq, true_and]
  constructor
  · intro h
    split at h
    · rename_i hc
      simpa [Bool.and_eq_true, Bool.or_eq_true, and_assoc] using hc
    · exact absurd h (by decide)
  · intro h
    have hc : (strings.EqualFold d.PackageType generator &&
        strings.Contains (strings.ToLower d.Filename) (strings.ToLower tag) &&
        (strings.EqualFold d.PythonVersion cpversion ||
          strings.Contains "py2.py3" (strings.ToLower d.PythonVersion))) = true := by
      simpa [Bool.and_eq_true, Bool.or_eq_true, and_assoc] using h
    simp [hc]

/-- C7, the code at the failing input: with an empty SHA-256 digest and the MD5
digest `a`, the resolver answers the tag SHA256 with the empty value, not the
MD5 digest that is present. -/
theorem highest_order_ignores_emptiness :
    GetHighestOrderHashData { MD5 := "a", SHA256 := "" } = (meta.HashAlgoSHA256, "") ∧
      GetHighestOrderHashData { MD5 := "a", SHA256 := "" } ≠ (meta.HashAlgoMD5, "a") := by
  decide

/-- C8: when both the MD5 and the SHA-256 digest are non-empty, the resolver
answers the tag SHA256 with exactly the value of the field `SHA256`. -/
theorem sha256_outranks_md5 (digests : DigestTypes) (_hmd5 : digests.MD5 ≠ "")
    (hsha : digests.SHA256 ≠ "") :
    GetHighestOrderHashData digests = (meta.HashAlgoSHA256, digests.SHA256) ∧
      (GetHighestOrderHashData digests).2 ≠ "" :=
  ⟨pickOrder_eq digests, by rw [pickOrder_eq]; exact hsha⟩

/-- Witness of C8 at `md5 = a`, `sha256 = b`. -/
theorem sha256_outranks_md5_witness :
    GetHighestOrderHashData { MD5 := "a", SHA256 := "b" } = (meta.HashAlgoSHA256, "b") :=
  (sha256_outranks_md5 { MD5 := "a", SHA256 := "b" } (by decide) (by decide)).1

end worker

/-! ## The fallback digest and the version normaliser of `composer` -/

theorem sha1.Sum_length (msg : List UInt8) : (sha1.Sum msg).length = 20 := by
  simp [sha1.Sum, sha1.be]

theorem hex.getD_mem (n : Nat) : hex.hextable.getD n '0' ∈ hex.hextable := by
  rw [List.getD_eq_getElem?_getD]
  cases h : hex.hextable[n]? with
  | none => simp only [Option.getD_none]; decide
  | some c => simpa using List.getElem?_mem h

theorem hex.EncodeToString_length (src : List UInt8) :
    (hex.EncodeToString src).length = 2 * src.length := by
  simp only [hex.EncodeToString, String.length]
  induction src with
  | nil => rfl
  | cons b bs ih => simp only [List.flatMap_cons, List.length_append, ih, List.length_cons,
      List.length_nil]; omega

theorem hex.EncodeToString_mem (src : List UInt8) :
    ∀ c ∈ (hex.EncodeToString src).data, c ∈ hex.hextable := by
  intro c hc
  simp only [hex.EncodeToString, List.mem_flatMap, List.mem_cons, List.mem_singleton,
    List.not_mem_nil, or_false] at hc
  obtain ⟨b, -, rfl | rfl⟩ := hc <;> exact hex.getD_mem _

namespace composer

theorem string_length_ne (s t : String) (h : s.length ≠ t.length) : s ≠ t :=
  fun e => h (by rw [e])

/-- C9: `readCheckSum` is a total function; it gives the empty string for the
empty string and, for a non-empty input, the hexadecimal encoding of the SHA-1
digest of the input's bytes, which is forty characters of `0123456789abcdef`
and so never empty. `getCheckSumValue` gives `Dist.Shasum` unchanged when it is
non-empty and otherwise `readCheckSum` of `genURLFromComposerPackage`. -/
theorem fallback_digest :
    readCheckSum "" = "" ∧
      (∀ content : String, content ≠ "" →
        readCheckSum content ≠ "" ∧
          readCheckSum content = hex.EncodeToString (sha1.Sum (bytes content)) ∧
          (sha1.Sum (bytes content)).length = 20 ∧
          (readCheckSum content).length = 40 ∧
          ∀ c ∈ (readCheckSum content).data, c ∈ "0123456789abcdef".data) ∧
      (∀ (removeURLProtocol : String → String) (module : LockPackage),
        module.Dist.Shasum ≠ "" →
          getCheckSumValue removeURLProtocol module = module.Dist.Shasum) ∧
      (∀ (removeURLProtocol : String → String) (module : LockPackage),
        module.Dist.Shasum = "" →
          getCheckSumValue removeURLProtocol module
            = readCheckSum (genURLFromComposerPackage removeURLProtocol module)) := by
  refine ⟨rfl, ?_, ?_, ?_⟩
  · intro content hne
    have hval : readCheckSum content = hex.EncodeToString (sha1.Sum (bytes content)) := by
      simp [readCheckSum, hne]
    have hlen : (readCheckSum content).length = 40 := by
      rw [hval, hex.EncodeToString_length, sha1.Sum_length]
    refine ⟨?_, hval, sha1.Sum_length _, hlen, ?_⟩
    · exact string_length_ne _ _ (by rw [hlen]; decide)
    · rw [hval]; exact hex.EncodeToString_mem _
  · intro rm module h
    simp [getCheckSumValue, h]
  · intro rm module h
    simp [getCheckSumValue, h]

/-- Witness of C9: the digest of `abc` is not empty and has forty characters; a
lock package with a `shasum` keeps it, one without gets the digest of its
generated URL. -/
theorem fallback_digest_witness :
    "abc" ≠ "" ∧ readCheckSum "abc" ≠ "" ∧ (readCheckSum "abc").length = 40 ∧
      getCheckSumValue id { Name := "org/pkg", Dist := { Shasum := "0f" } } = "0f" ∧
      getCheckSumValue id { Name := "org/pkg" }
        = readCheckSum (genURLFromComposerPackage id { Name := "org/pkg" }) :=
  ⟨by decide, (fallback_digest.2.1 "abc" (by decide)).1,
   (fallback_digest.2.1 "abc" (by decide)).2.2.2.1,
   fallback_digest.2.2.1 id { Name := "org/pkg", Dist := { Shasum := "0f" } } (by decide),
   fallback_digest.2.2.2 id { Name := "org/pkg" } (by decide)⟩

set_option maxRecDepth 100000 in
/-- The embedding of SHA-1 on the published test vectors of the empty message
and of `abc`, and `readCheckSum` on `abc`. -/
theorem sha1_test_vectors :
    hex.EncodeToString (sha1.Sum []) = "da39a3ee5e6b4b0d3255bfef95601890afd80709" ∧
      hex.EncodeToString (sha1.Sum (bytes "abc")) = "a9993e364706816aba3e25717850c26c9cd0d89d" ∧
      readCheckSum "abc" = "a9993e364706816aba3e25717850c26c9cd0d89d" := by
  decide

/-- C10, as stated, fails: `v1.0-dev` begins with `v` and the portion after that
`v` is `1.0-dev`, but the result is `1.0-de`. -/
theorem leading_v_not_whole_rest :
    "v1.0-dev".data = 'v' :: "1.0-dev".data ∧
      normalizePackageVersion "v1.0-dev" = "1.0-de" ∧
      normalizePackageVersion "v1.0-dev" ≠ "1.0-dev" := by
  decide

/-- C10, amended: for a version beginning with `v` the result is the portion
between that `v` and the next `v` (the whole rest when no further `v` occurs);
every other version, the empty one included, is returned unchanged. -/
theorem normalizePackageVersion_leading_v (version : String) :
    (∀ rest : List Char, version.data = 'v' :: rest →
      normalizePackageVersion version = String.mk (rest.takeWhile (fun c => c ≠ 'v'))) ∧
    (∀ rest : List Char, version.data = 'v' :: rest → 'v' ∉ rest →
      normalizePackageVersion version = String.mk rest) ∧
    ((∀ rest : List Char, version.data ≠ 'v' :: rest) →
      normalizePackageVersion version = version) := by
  have key : ∀ rest : List Char, version.data = 'v' :: rest →
      normalizePackageVersion version = String.mk (rest.takeWhile (fun c => c ≠ 'v')) := by
    intro rest h
    have hhead := strings.splitChars_head 'v' rest
    cases hs : strings.splitChars 'v' rest with
    | nil => exact absurd hs (strings.splitChars_ne_nil _ _)
    | cons p ps =>
      rw [hs] at hhead
      simp only [List.getD_cons_zero] at hhead
      simp [normalizePackageVersion, strings.Split, h, strings.splitChars, hs, hhead]
  refine ⟨key, ?_, ?_⟩
  · intro rest h hnot
    rw [key rest h]
    congr 1
    rw [List.takeWhile_eq_self_iff]
    intro c hc
    simpa using fun e : c = 'v' => hnot (e ▸ hc)
  · intro h
    obtain ⟨l⟩ := version
    cases l with
    | nil => rfl
    | cons c cs =>
      have hc : c ≠ 'v' := fun e => h cs (by simp [e])
      have hhead := strings.splitChars_head 'v' (c :: cs)
      cases hs : strings.splitChars 'v' (c :: cs) with
      | nil => exact absurd hs (strings.splitChars_ne_nil _ _)
      | cons p ps =>
        rw [hs] at hhead
        simp only [List.getD_cons_zero, List.takeWhile, hc, ne_eq, not_false_eq_true,
          decide_True] at hhead
        have hne : String.mk p ≠ "" := by
          intro e
          have e' := congrArg String.data e
          rw [hhead] at e'
          exact absurd e' (List.cons_ne_nil _ _)
        simp [normalizePackageVersion, strings.Split, hs, hne]

/-- Witness of C10 amended: `v1.2.3` gives `1.2.3` and `1.2.3` is unchanged. -/
theorem normalizePackageVersion_leading_v_witness :
    normalizePackageVersion "v1.2.3" = "1.2.3" ∧ normalizePackageVersion "1.2.3" = "1.2.3" :=
  ⟨(normalizePackageVersion_leading_v "v1.2.3").2.1 "1.2.3".data (by decide) (by decide),
   (normalizePackageVersion_leading_v "1.2.3").2.2 (fun _ h =>
     (by decide : "1.2.3".data.head? ≠ some 'v') (congrArg List.head? h))⟩

end composer

/-! ## The dependency graph assembler of `composer` -/

namespace composer

open meta

theorem TreeComponent.induct {P : TreeComponent → Prop} {Q : List TreeComponent → Prop}
    (node : ∀ n rs, Q rs → P (.mk n rs)) (nil : Q [])
    (cons : ∀ t ts, P t → Q ts → Q (t :: ts)) : (∀ t, P t) ∧ ∀ ts, Q ts :=
  ⟨fun t => @TreeComponent.rec P Q node nil cons t,
   fun ts => @TreeComponent.rec_1 P Q node nil cons ts⟩

theorem lookup_mapSet_self {α : Type} (m : List (String × α)) (k : String) (v : α) :
    (mapSet m k v).lookup k = some v := by
  simp [mapSet, List.lookup]

theorem lookup_filter_ne {α : Type} (m : List (String × α)) (k k' : String) (h : k' ≠ k) :
    (m.filter (fun e => e.1 != k)).lookup k' = m.lookup k' := by
  induction m with
  | nil => rfl
  | cons e es ih =>
    obtain ⟨a, v⟩ := e
    by_cases ha : a = k
    · subst ha
      have : (k' == a) = false := by simpa using h
      simp [List.filter, List.lookup, this, ih]
    · have hne : (a != k) = true := by simpa using ha
      simp only [List.filter, hne, List.lookup]
      split <;> simp_all

theorem lookup_mapSet_ne {α : Type} (m : List (String × α)) (k k' : String) (v : α)
    (h : k' ≠ k) : (mapSet m k v).lookup k' = m.lookup k' := by
  have : (k' == k) = false := by simpa using h
  simp [mapSet, List.lookup, this, lookup_filter_ne m k k' h]

theorem lastFields_name : ∀ (F : List PackageFields) (k : String) (g : PackageFields),
    lastFields F k = some g → g ∈ F ∧ g.Name = k
  | [], _, _, h => by simp [lastFields] at h
  | f :: F, k, g, h => by
    simp only [lastFields] at h
    cases hl : lastFields F k with
    | some g' =>
      rw [hl] at h
      simp only [Option.some.injEq] at h
      subst h
      exact ⟨List.mem_cons_of_mem _ (lastFields_name F k g' hl).1, (lastFields_name F k g' hl).2⟩
    | none =>
      rw [hl] at h
      by_cases hf : f.Name = k
      · simp only [hf, if_true, Option.some.injEq] at h
        subst h
        exact ⟨List.mem_cons_self _ _, hf⟩
      · simp [hf] at h

theorem lastFields_isSome (F : List PackageFields) (k : String) :
    (lastFields F k).isSome = true ↔ k ∈ F.map PackageFields.Name := by
  induction F with
  | nil => simp [lastFields]
  | cons f F ih =>
    simp only [lastFields, List.map_cons, List.mem_cons]
    cases hl : lastFields F k with
    | some g =>
      rw [hl] at ih
      simp only [Option.isSome_some, true_iff] at ih
      simp [ih]
    | none =>
      rw [hl] at ih
      have hn : k ∉ F.map PackageFields.Name := by
        intro hk
        have := ih.2 hk
        simp at this
      by_cases hf : f.Name = k
      · simp [hf]
      · simp only [hf, if_false, Option.isSome_none, hn, or_false]
        constructor
        · intro h; exact absurd h (by decide)
        · intro h; exact absurd h.symm hf

/-- What the first loop of `addTreeComponentsToModule` leaves in `moduleMap`. -/
theorem indexModules_lookup (ms : List Package) : ∀ (idx : Nat)
    (acc : List (String × Package) × List (String × Nat)) (k : String),
    ((indexModules idx ms acc).1.lookup k).map Package.fields =
      match lastFields (ms.map Package.fields) k with
      | some g => some g
      | none => (acc.1.lookup k).map Package.fields := by
  induction ms with
  | nil => intro idx acc k; simp [indexModules, lastFields]
  | cons p ps ih =>
    intro idx acc k
    simp only [indexModules, List.map_cons, lastFields]
    rw [ih]
    cases hl : lastFields (ps.map Package.fields) k with
    | some g => rfl
    | none =>
      simp only
      by_cases hp : p.Name = k
      · have hp' : p.fields.Name = k := hp
        subst hp
        simp [lookup_mapSet_self, hp']
      · have hp' : ¬ p.fields.Name = k := hp
        rw [lookup_mapSet_ne _ _ _ _ (Ne.symm hp)]
        simp [hp']

theorem indexModules_index (ms : List Package) : ∀ (idx : Nat)
    (acc : List (String × Package) × List (String × Nat)) (k : String) (j : Nat),
    (indexModules idx ms acc).2.lookup k = some j →
      acc.2.lookup k = some j ∨ (idx ≤ j ∧ j < idx + ms.length) := by
  induction ms with
  | nil => intro idx acc k j h; exact Or.inl h
  | cons p ps ih =>
    intro idx acc k j h
    simp only [indexModules] at h
    rcases ih _ _ _ _ h with h' | h'
    · by_cases hp : k = p.Name
      · subst hp
        rw [lookup_mapSet_self] at h'
        simp only [Option.some.injEq] at h'
        subst h'
        exact Or.inr ⟨le_refl _, by simp⟩
      · rw [lookup_mapSet_ne _ _ _ _ hp] at h'
        exact Or.inl h'
    · refine Or.inr ⟨by omega, ?_⟩
      simp only [List.length_cons]
      omega

end composer

namespace composer

open meta

/-- The store of `addSubModuleToAModule`, in the vocabulary of `attachedCopy`. -/
theorem addSubModuleToAModule_eq (ms : List Package) (i : Nat) (sub : Package) :
    addSubModuleToAModule ms i sub =
      match ms.get? i with
      | some (.mk f (some m)) =>
        some (ms.set i (.mk f (some (mapSet m sub.fields.Name (attachedCopy sub.fields)))))
      | _ => none := by
  unfold addSubModuleToAModule
  cases ms.get? i with
  | none => rfl
  | some p =>
    obtain ⟨f, _ | m⟩ := p
    · rfl
    · rfl

theorem map_fields_set (ms : List Package) (i : Nat) (f : PackageFields)
    (m m' : Option (List (String × Package))) (h : ms.get? i = some (.mk f m)) :
    (ms.set i (.mk f m')).map Package.fields = ms.map Package.fields := by
  induction ms generalizing i with
  | nil => rfl
  | cons p ps ih =>
    cases i with
    | zero =>
      simp only [List.get?_cons_zero, Option.some.injEq] at h
      subst h
      rfl
    | succ i =>
      simp only [List.get?_cons_succ] at h
      simp only [List.set_cons_succ, List.map_cons, ih i h]

theorem Attach.fields {F : List PackageFields} {ms ms' : List Package} (h : Attach F ms ms') :
    ms'.map Package.fields = ms.map Package.fields := by
  obtain ⟨i, f, m, key, g, hget, -, rfl⟩ := h
  exact map_fields_set ms i f _ _ hget

theorem Attach.allInit {F : List PackageFields} {ms ms' : List Package} (h : Attach F ms ms')
    (hinit : AllInit ms) : AllInit ms' := by
  obtain ⟨i, f, m, key, g, -, -, rfl⟩ := h
  intro p hp
  rcases List.mem_or_eq_of_mem_set hp with hp | rfl
  · exact hinit p hp
  · rfl

/-- Several stores in a row. -/
theorem steps_fields {F : List PackageFields} {ms ms' : List Package}
    (h : Relation.ReflTransGen (Attach F) ms ms') :
    ms'.map Package.fields = ms.map Package.fields := by
  induction h with
  | refl => rfl
  | tail _ hstep ih => rw [hstep.fields, ih]

theorem steps_allInit {F : List PackageFields} {ms ms' : List Package}
    (h : Relation.ReflTransGen (Attach F) ms ms') (hinit : AllInit ms) : AllInit ms' := by
  induction h with
  | refl => exact hinit
  | tail _ hstep ih => exact hstep.allInit ih

theorem steps_length {F : List PackageFields} {ms ms' : List Package}
    (h : Relation.ReflTransGen (Attach F) ms ms') : ms'.length = ms.length := by
  have := congrArg List.length (steps_fields h)
  simpa using this

theorem moduleMap_sound (ms : List Package) (k : String) (c : Package)
    (h : (indexModules 0 ms ([], [])).1.lookup k = some c) :
    lastFields (ms.map Package.fields) k = some c.fields := by
  have := indexModules_lookup ms 0 ([], []) k
  rw [h] at this
  cases hl : lastFields (ms.map Package.fields) k with
  | some g =>
    rw [hl] at this
    simpa using this.symm
  | none =>
    rw [hl] at this
    simp at this

theorem moduleMap_isSome (ms : List Package) (k : String) :
    ((indexModules 0 ms ([], [])).1.lookup k).isSome = true ↔ k ∈ ms.map Package.Name := by
  have := indexModules_lookup ms 0 ([], []) k
  have hiff := lastFields_isSome (ms.map Package.fields) k
  have hnames : (ms.map Package.fields).map PackageFields.Name = ms.map Package.Name := by
    simp [List.map_map, Function.comp_def, Package.Name]
  rw [hnames] at hiff
  rw [← hiff]
  cases hl : lastFields (ms.map Package.fields) k with
  | some g =>
    rw [hl] at this
    cases hm : (indexModules 0 ms ([], [])).1.lookup k with
    | some c => simp
    | none => rw [hm] at this; simp at this
  | none =>
    rw [hl] at this
    cases hm : (indexModules 0 ms ([], [])).1.lookup k with
    | some c => rw [hm] at this; simp [List.lookup] at this
    | none => simp

theorem moduleIndex_lt (ms : List Package) (k : String)
    (h : ((indexModules 0 ms ([], [])).1.lookup k).isSome = true) :
    ((indexModules 0 ms ([], [])).2.lookup k).getD 0 < ms.length := by
  have hne : ms ≠ [] := by
    rintro rfl
    simp [indexModules, List.lookup] at h
  cases hj : (indexModules 0 ms ([], [])).2.lookup k with
  | none =>
    simp only [Option.getD_none]
    exact List.length_pos.2 hne
  | some j =>
    rcases indexModules_index ms 0 ([], []) k j hj with h' | h'
    · simp [List.lookup] at h'
    · simpa using h'.2

/-- Soundness of the assembly: whatever `addTreeComponentsToModule` and its
second loop return was reached from the given collection by stores of attached
copies. -/
theorem assembly_steps :
    (∀ (t : TreeComponent) (ms ms' : List Package) (b : Bool),
      addTreeComponentsToModule t ms = some (ms', b) →
        Relation.ReflTransGen (Attach (ms.map Package.fields)) ms ms') ∧
    (∀ (rs : List TreeComponent) (mm : List (String × Package)) (ri : Nat)
      (ms ms' : List Package),
      (∀ k c, mm.lookup k = some c → lastFields (ms.map Package.fields) k = some c.fields) →
      addRequires mm ri rs ms = some ms' →
        Relation.ReflTransGen (Attach (ms.map Package.fields)) ms ms') := by
  apply TreeComponent.induct
  · intro n rs ih ms ms' b h
    simp only [addTreeComponentsToModule] at h
    split at h
    · simp only [Option.some.injEq, Prod.mk.injEq] at h
      rw [← h.1]
    · split at h
      · simp only [Option.some.injEq, Prod.mk.injEq] at h
        rw [← h.1]
      · split at h
        · exact absurd h (by simp)
        · rename_i ms'' hreq
          simp only [Option.some.injEq, Prod.mk.injEq] at h
          rw [← h.1]
          exact ih _ _ ms ms'' (fun k c hk => moduleMap_sound ms k c hk) hreq
  · intro mm ri ms ms' _ h
    simp only [addRequires, Option.some.injEq] at h
    rw [← h]
  · intro t ts iht ihts mm ri ms ms' hmm h
    simp only [addRequires] at h
    split at h
    · exact ihts mm ri ms ms' hmm h
    · rename_i c hc
      split at h
      · exact absurd h (by simp)
      · rename_i ms1 hsub
        split at h
        · exact absurd h (by simp)
        · rename_i r hr
          have hstep : Attach (ms.map Package.fields) ms ms1 := by
            rw [addSubModuleToAModule_eq] at hsub
            split at hsub
            · rename_i f m hget
              simp only [Option.some.injEq] at hsub
              have h1 := hmm _ c hc
              have h2 := (lastFields_name _ _ _ h1).2
              exact ⟨ri, f, m, c.fields.Name, c.fields, hget, by rw [h2]; exact h1, hsub.symm⟩
            · exact absurd hsub (by simp)
          have hf1 : ms1.map Package.fields = ms.map Package.fields := hstep.fields
          have hrec := iht ms1 r.1 r.2 (by rw [hr])
          rw [hf1] at hrec
          have hf2 : r.1.map Package.fields = ms.map Package.fields := by
            rw [steps_fields hrec, hf1]
          have hrest := ihts mm ri r.1 ms' (by rw [hf2]; exact hmm) h
          rw [hf2] at hrest
          exact (Relation.ReflTransGen.single hstep).trans (hrec.trans hrest)

end composer

namespace composer

open meta

/-- Totality of the assembly on collections whose maps are all allocated. -/
theorem assembly_total :
    (∀ (t : TreeComponent) (ms : List Package), AllInit ms →
      ∃ r, addTreeComponentsToModule t ms = some r) ∧
    (∀ (rs : List TreeComponent) (mm : List (String × Package)) (ri : Nat)
      (ms : List Package), AllInit ms → ri < ms.length →
      (∀ k c, mm.lookup k = some c → lastFields (ms.map Package.fields) k = some c.fields) →
      ∃ ms', addRequires mm ri rs ms = some ms') := by
  apply TreeComponent.induct
  · intro n rs ih ms hinit
    simp only [addTreeComponentsToModule]
    split
    · exact ⟨_, rfl⟩
    · rename_i c hc
      split
      · exact ⟨_, rfl⟩
      · obtain ⟨ms', h'⟩ := ih (indexModules 0 ms ([], [])).1
          (((indexModules 0 ms ([], [])).2.lookup (getName n)).getD 0) ms hinit
          (moduleIndex_lt ms _ (by rw [hc]; rfl)) (fun k c hk => moduleMap_sound ms k c hk)
        rw [h']
        exact ⟨_, rfl⟩
  · intro mm ri ms _ _ _
    exact ⟨ms, by simp only [addRequires]⟩
  · intro t ts iht ihts mm ri ms hinit hri hmm
    simp only [addRequires]
    split
    · exact ihts mm ri ms hinit hri hmm
    · rename_i c hc
      obtain ⟨p, hp⟩ : ∃ p, ms.get? ri = some p := by
        exact ⟨ms.get ⟨ri, hri⟩, List.get?_eq_get _⟩
      obtain ⟨f, pk⟩ := p
      have hpk : pk.isSome = true := hinit _ (List.get?_mem hp)
      obtain ⟨m, rfl⟩ := Option.isSome_iff_exists.1 hpk
      have hsub : addSubModuleToAModule ms ri c = some (ms.set ri
          (.mk f (some (mapSet m c.fields.Name (attachedCopy c.fields))))) := by
        rw [addSubModuleToAModule_eq, hp]
      have h1 := hmm _ c hc
      have hstep : Attach (ms.map Package.fields) ms (ms.set ri
          (.mk f (some (mapSet m c.fields.Name (attachedCopy c.fields))))) :=
        ⟨ri, f, m, c.fields.Name, c.fields, hp,
          by rw [(lastFields_name _ _ _ h1).2]; exact h1, rfl⟩
      rw [hsub]
      simp only
      have hinit1 := hstep.allInit hinit
      obtain ⟨r, hr⟩ := iht _ hinit1
      rw [hr]
      simp only
      have hrec := assembly_steps.1 t _ r.1 r.2 (by rw [hr])
      have hf1 := hstep.fields
      have hf2 : r.1.map Package.fields = ms.map Package.fields := by
        rw [steps_fields hrec, hf1]
      have hlen : r.1.length = ms.length := by
        simpa using congrArg List.length hf2
      exact ihts mm ri r.1 (steps_allInit hrec hinit1) (by rw [hlen]; exact hri)
        (by rw [hf2]; exact hmm)

theorem map_name_eq_of_fields {ms ms' : List Package}
    (h : ms'.map Package.fields = ms.map Package.fields) :
    ms'.map Package.Name = ms.map Package.Name := by
  have := congrArg (List.map PackageFields.Name) h
  simpa [List.map_map, Function.comp_def, Package.Name] using this

theorem prune_name (names : List String) (t : TreeComponent) : (prune names t).Name = t.Name := by
  cases t
  simp [prune, TreeComponent.Name]

/-- The assembly does not see the child requirements that name no module. -/
theorem assembly_prune :
    (∀ (t : TreeComponent) (ms : List Package),
      (addTreeComponentsToModule t ms).map Prod.fst =
        (addTreeComponentsToModule (prune (ms.map Package.Name) t) ms).map Prod.fst) ∧
    (∀ (rs : List TreeComponent) (mm : List (String × Package)) (ri : Nat)
      (ms : List Package),
      (∀ k, (mm.lookup k).isSome = true ↔ k ∈ ms.map Package.Name) →
      (∀ k c, mm.lookup k = some c → lastFields (ms.map Package.fields) k = some c.fields) →
      addRequires mm ri rs ms = addRequires mm ri (pruneList (ms.map Package.Name) rs) ms) := by
  apply TreeComponent.induct
  · intro n rs ih ms
    simp only [addTreeComponentsToModule, prune]
    split
    · rfl
    · have hreq := ih (indexModules 0 ms ([], [])).1
        (((indexModules 0 ms ([], [])).2.lookup (getName n)).getD 0) ms
        (fun k => moduleMap_isSome ms k) (fun k c hk => moduleMap_sound ms k c hk)
      by_cases h1 : rs.isEmpty = true
      · have hrs : rs = [] := List.isEmpty_iff.1 h1
        subst hrs
        simp [pruneList]
      · by_cases h2 : (pruneList (ms.map Package.Name) rs).isEmpty = true
        · have hp : pruneList (ms.map Package.Name) rs = [] := List.isEmpty_iff.1 h2
          rw [hp] at hreq
          simp only [addRequires] at hreq
          simp only [h1, hp, hreq, List.isEmpty_nil, if_true, if_false, Option.map_some']
          rfl
        · simp only [h1, h2, if_false, ← hreq]
  · intro mm ri ms _ _
    simp only [pruneList]
  · intro t ts iht ihts mm ri ms hiff hmm
    simp only [pruneList]
    by_cases hin : getName t.Name ∈ ms.map Package.Name
    · simp only [hin, if_true, addRequires, prune_name]
      obtain ⟨c, hc⟩ := Option.isSome_iff_exists.1 ((hiff _).2 hin)
      simp only [hc]
      cases hsub : addSubModuleToAModule ms ri c with
      | none => rfl
      | some ms1 =>
        simp only
        have hstep : Attach (ms.map Package.fields) ms ms1 := by
          rw [addSubModuleToAModule_eq] at hsub
          split at hsub
          · rename_i f m hget
            simp only [Option.some.injEq] at hsub
            have h1 := hmm _ c hc
            have h2 := (lastFields_name _ _ _ h1).2
            exact ⟨ri, f, m, c.fields.Name, c.fields, hget, by rw [h2]; exact h1, hsub.symm⟩
          · exact absurd hsub (by simp)
        have hf1 := hstep.fields
        have hn1 := map_name_eq_of_fields hf1
        have hrec := iht ms1
        rw [hn1] at hrec
        cases hr : addTreeComponentsToModule t ms1 with
        | none =>
          rw [hr] at hrec
          cases hr' : addTreeComponentsToModule (prune (ms.map Package.Name) t) ms1 with
          | none => rfl
          | some r' => rw [hr'] at hrec; simp at hrec
        | some r =>
          rw [hr] at hrec
          cases hr' : addTreeComponentsToModule (prune (ms.map Package.Name) t) ms1 with
          | none => rw [hr'] at hrec; simp at hrec
          | some r' =>
            rw [hr'] at hrec
            simp only [Option.map_some', Option.some.injEq] at hrec
            simp only
            rw [← hrec]
            have hsteps := assembly_steps.1 t ms1 r.1 r.2 (by rw [hr])
            have hf2 : r.1.map Package.fields = ms.map Package.fields := by
              rw [steps_fields hsteps, hf1]
            have hn2 := map_name_eq_of_fields hf2
            have := ihts mm ri r.1 (by rw [hn2]; exact hiff) (by rw [hf2]; exact hmm)
            rw [hn2] at this
            exact this
    · simp only [hin, if_false, addRequires]
      have hnone : mm.lookup (getName t.Name) = none := by
        cases hl : mm.lookup (getName t.Name) with
        | none => rfl
        | some c => exact absurd ((hiff _).1 (by rw [hl]; rfl)) hin
      simp only [hnone]
      exact ihts mm ri ms hiff hmm

/-- What a run of stores does to the entries of the maps: an entry either is
what it was or holds the attached copy of the last module named by its key. -/
theorem steps_child {F : List PackageFields} {ms ms' : List Package}
    (h : Relation.ReflTransGen (Attach F) ms ms') (i : Nat) (p p' : Package) (key : String)
    (hp : ms.get? i = some p) (hp' : ms'.get? i = some p') :
    p'.child key = p.child key ∨
      ∃ g, lastFields F key = some g ∧ p'.child key = some (attachedCopy g) := by
  induction h generalizing p' with
  | refl =>
    rw [hp] at hp'
    simp only [Option.some.injEq] at hp'
    subst hp'
    exact Or.inl rfl
  | @tail mid last hsteps hstep ih =>
    have hlen := steps_length hsteps
    have hi : i < ms.length := by
      simp only [List.get?_eq_getElem?] at hp
      exact (List.getElem?_eq_some_iff.1 hp).1
    obtain ⟨q, hq⟩ : ∃ q, mid.get? i = some q := by
      exact ⟨mid.get ⟨i, by rw [hlen]; exact hi⟩, List.get?_eq_get _⟩
    have ihq := ih q hq
    obtain ⟨j, f, m, k, g, hget, hlast, rfl⟩ := hstep
    by_cases hij : j = i
    · subst hij
      rw [hq] at hget
      simp only [Option.some.injEq] at hget
      subst hget
      simp only [List.get?_eq_getElem?] at hp'
      rw [List.getElem?_set_self (by rw [hlen]; exact hi)] at hp'
      simp only [Option.some.injEq] at hp'
      subst hp'
      by_cases hk : key = k
      · subst hk
        exact Or.inr ⟨g, hlast, by simp [Package.child, Package.Packages, lookup_mapSet_self]⟩
      · have : (Package.mk f (some (mapSet m k (attachedCopy g)))).child key
            = (Package.mk f (some m)).child key := by
          simp [Package.child, Package.Packages, lookup_mapSet_ne _ _ _ _ hk]
        rw [this]
        exact ihq
    · simp only [List.get?_eq_getElem?] at hp' hq
      rw [List.getElem?_set_ne hij] at hp'
      rw [hq] at hp'
      simp only [Option.some.injEq] at hp'
      subst hp'
      exact ihq

end composer

namespace composer

open meta

theorem hasKey_eq_child (p : Package) (key : String) :
    p.hasKey key = (p.child key).isSome := by
  obtain ⟨f, _ | m⟩ := p <;> rfl

/-- C1, as stated, fails: after the assembly of `tree3` over `flat3` the root's
map holds `A`, but the package stored there has a nil map of its own and so
does not hold `B`. -/
theorem nested_copy_has_no_packages :
    ∃ modules' root' a',
      addTreeComponentsToModule tree3 flat3 = some (modules', true) ∧
        modules'.head? = some root' ∧ root'.hasKey "A" = true ∧
        root'.child "A" = some a' ∧ a'.Packages = none ∧ a'.hasKey "B" = false :=
  ⟨_, _, _, rfl, rfl, rfl, rfl, rfl, rfl⟩

/-- C1, amended: for a flat collection `[root, A, B]` of distinct names with
empty maps and the tree `root → [A → [B]]`, the assembly succeeds and leaves
exactly this: the root's map holds the attached copy of `A` under `A`'s name, the
map of the flat module `A` holds the attached copy of `B` under `B`'s name, and
the map of `B` is empty. The copy of `A` held by the root has a nil map: the
edge from `A` to `B` is kept on the flat module `A`. -/
theorem graph_assembly_flat_edges (root a b : PackageFields) (nr na nb : String)
    (hr : getName nr = root.Name) (ha : getName na = a.Name) (hb : getName nb = b.Name)
    (hra : root.Name ≠ a.Name) (hrb : root.Name ≠ b.Name) (hab : a.Name ≠ b.Name) :
    addTreeComponentsToModule (.mk nr [.mk na [.mk nb []]])
        [.mk root (some []), .mk a (some []), .mk b (some [])] =
      some ([.mk root (some [(a.Name, attachedCopy a)]),
             .mk a (some [(b.Name, attachedCopy b)]),
             .mk b (some [])], true) ∧
    (Package.mk root (some [(a.Name, attachedCopy a)])).hasKey a.Name = true ∧
    (Package.mk root (some [(a.Name, attachedCopy a)])).child a.Name = some (attachedCopy a) ∧
    (attachedCopy a).Packages = none ∧ (attachedCopy a).hasKey b.Name = false ∧
    (Package.mk a (some [(b.Name, attachedCopy b)])).hasKey b.Name = true := by
  have e1 : (root.Name == a.Name) = false := by simpa using hra
  have e2 : (root.Name == b.Name) = false := by simpa using hrb
  have e3 : (a.Name == b.Name) = false := by simpa using hab
  have e4 : (a.Name == root.Name) = false := by simpa using hra.symm
  have e5 : (b.Name == root.Name) = false := by simpa using hrb.symm
  have e6 : (b.Name == a.Name) = false := by simpa using hab.symm
  have n1 : (root.Name != a.Name) = true := by simpa using hra
  have n2 : (root.Name != b.Name) = true := by simpa using hrb
  have n3 : (a.Name != b.Name) = true := by simpa using hab
  have n4 : (a.Name != root.Name) = true := by simpa using hra.symm
  have n5 : (b.Name != root.Name) = true := by simpa using hrb.symm
  have n6 : (b.Name != a.Name) = true := by simpa using hab.symm
  refine ⟨?_, ?_, ?_, rfl, rfl, ?_⟩
  · simp [addTreeComponentsToModule, addRequires, indexModules, mapSet, List.lookup,
      addSubModuleToAModule_eq, TreeComponent.Name, Package.Name, Package.fields, hr, ha, hb,
      e1, e2, e3, e4, e5, e6, n1, n2, n3, n4, n5, n6, List.filter]
  · simp [Package.hasKey, Package.Packages, List.lookup]
  · simp [Package.child, Package.Packages, List.lookup]
  · simp [Package.hasKey, Package.Packages, List.lookup]

/-- Witness of C1 amended at `flat3` and `tree3`. -/
theorem graph_assembly_flat_edges_witness :
    addTreeComponentsToModule tree3 flat3 =
      some ([.mk rootFields (some [("A", attachedCopy aFields)]),
             .mk aFields (some [("B", attachedCopy bFields)]),
             .mk bFields (some [])], true) :=
  (graph_assembly_flat_edges rootFields aFields bFields "root" "org/A" "org/B"
    (by decide) (by decide) (by decide) (by decide) (by decide) (by decide)).1

/-- C2, the code at the failing input: the flat module `A` of `flat3` has a
download location; the package attached for it under the root has an empty
`PackageDownloadLocation`, while its name and version are those of `A`. -/
theorem attached_copy_drops_download_location :
    ∃ modules' root' a',
      addTreeComponentsToModule (.mk "root" [.mk "org/A" []]) flat3 = some (modules', true) ∧
        modules'.head? = some root' ∧ root'.child "A" = some a' ∧
        a'.fields.Name = "A" ∧ a'.fields.Version = "1.0.0" ∧
        a'.fields.PackageDownloadLocation = "" ∧
        aFields.PackageDownloadLocation = "https://github.com/org/A.git" :=
  ⟨_, _, _, rfl, rfl, rfl, rfl, rfl, rfl, rfl⟩

/-- C3: on a collection whose maps are all allocated the assembly completes for
every requirement tree, and it ends in the very state it reaches for the tree
pruned of the child requirements that name no module of the collection. The
plain fields of the modules are untouched, and an entry of a module's map
either is what it was or sits under the name of a module of the collection and
holds that module's attached copy (whose own map is nil); so no map gains a key
that is not the name of a module. -/
theorem unknown_requirements_dropped (t : TreeComponent) (modules : List Package)
    (hinit : AllInit modules) :
    ∃ modules' b b',
      addTreeComponentsToModule t modules = some (modules', b) ∧
      addTreeComponentsToModule (prune (modules.map Package.Name) t) modules
        = some (modules', b') ∧
      modules'.map Package.fields = modules.map Package.fields ∧
      (∀ i p p' key, modules.get? i = some p → modules'.get? i = some p' →
        p'.child key = p.child key ∨
          (key ∈ modules.map Package.Name ∧
            ∃ g ∈ modules.map Package.fields, g.Name = key ∧
              p'.child key = some (attachedCopy g))) ∧
      (∀ i p p' key, modules.get? i = some p → modules'.get? i = some p' →
        p'.hasKey key = true → p.hasKey key = true ∨ key ∈ modules.map Package.Name) := by
  obtain ⟨r, hr⟩ := assembly_total.1 t modules hinit
  have hpr := assembly_prune.1 t modules
  rw [hr] at hpr
  cases hr' : addTreeComponentsToModule (prune (modules.map Package.Name) t) modules with
  | none => rw [hr'] at hpr; simp at hpr
  | some r' =>
    rw [hr'] at hpr
    simp only [Option.map_some', Option.some.injEq] at hpr
    have hsteps := assembly_steps.1 t modules r.1 r.2 (by rw [hr])
    have hchild : ∀ i p p' key, modules.get? i = some p → r.1.get? i = some p' →
        p'.child key = p.child key ∨
          (key ∈ modules.map Package.Name ∧
            ∃ g ∈ modules.map Package.fields, g.Name = key ∧
              p'.child key = some (attachedCopy g)) := by
      intro i p p' key hp hp'
      rcases steps_child hsteps i p p' key hp hp' with h | ⟨g, hg, h⟩
      · exact Or.inl h
      · have hn := lastFields_name _ _ _ hg
        refine Or.inr ⟨?_, g, hn.1, hn.2, h⟩
        have := (lastFields_isSome (modules.map Package.fields) key).1 (by rw [hg]; rfl)
        simpa [List.map_map, Function.comp_def, Package.Name] using this
    refine ⟨r.1, r.2, r'.2, hr, ?_, steps_fields hsteps, hchild, ?_⟩
    · rw [hpr]
    · intro i p p' key hp hp' hk
      rcases hchild i p p' key hp hp' with h | ⟨h, -⟩
      · left
        rw [hasKey_eq_child] at hk ⊢
        rw [← h]; exact hk
      · exact Or.inr h

/-- Witness of C3: the requirement `org/C` names no module of `flat3`. -/
theorem unknown_requirements_dropped_witness :
    ∃ modules' b b',
      addTreeComponentsToModule (.mk "root" [.mk "org/C" [.mk "org/B" []], .mk "org/A" []])
        flat3 = some (modules', b) ∧
      addTreeComponentsToModule (prune (flat3.map Package.Name)
        (.mk "root" [.mk "org/C" [.mk "org/B" []], .mk "org/A" []])) flat3
        = some (modules', b') ∧
      modules'.map Package.fields = flat3.map Package.fields ∧
      (∀ i p p' key, flat3.get? i = some p → modules'.get? i = some p' →
        p'.child key = p.child key ∨
          (key ∈ flat3.map Package.Name ∧
            ∃ g ∈ flat3.map Package.fields, g.Name = key ∧
              p'.child key = some (attachedCopy g))) ∧
      (∀ i p p' key, flat3.get? i = some p → modules'.get? i = some p' →
        p'.hasKey key = true → p.hasKey key = true ∨ key ∈ flat3.map Package.Name) :=
  unknown_requirements_dropped _ flat3 (by decide)

/-- C4: when the normalized name of a tree node names no module of the flat
collection, `addTreeComponentsToModule` returns false and the collection, every
map included, is left as it was, whatever the node's child requirements. -/
theorem unknown_root_is_noop (node : TreeComponent) (modules : List Package)
    (h : getName node.Name ∉ modules.map Package.Name) :
    addTreeComponentsToModule node modules = some (modules, false) := by
  obtain ⟨n, rs⟩ := node
  simp only [TreeComponent.Name] at h
  have hnone : (indexModules 0 modules ([], [])).1.lookup (getName n) = none := by
    cases hl : (indexModules 0 modules ([], [])).1.lookup (getName n) with
    | none => rfl
    | some c => exact absurd ((moduleMap_isSome modules _).1 (by rw [hl]; rfl)) h
  simp only [addTreeComponentsToModule, hnone]

/-- Witness of C4: `ghost` names no module of `flat3`, though its requirement
`org/A` does. -/
theorem unknown_root_is_noop_witness :
    addTreeComponentsToModule (.mk "ghost" [.mk "org/A" []]) flat3 = some (flat3, false) :=
  unknown_root_is_noop (.mk "ghost" [.mk "org/A" []]) flat3 (by decide)

end composer

namespace composer

open meta

theorem indexModules_index_name (ms : List Package) : ∀ (idx : Nat)
    (acc : List (String × Package) × List (String × Nat)) (k : String) (j : Nat),
    (indexModules idx ms acc).2.lookup k = some j →
      acc.2.lookup k = some j ∨
        (idx ≤ j ∧ (ms.get? (j - idx)).map Package.Name = some k) := by
  induction ms with
  | nil => intro idx acc k j h; exact Or.inl h
  | cons p ps ih =>
    intro idx acc k j h
    simp only [indexModules] at h
    rcases ih _ _ _ _ h with h' | h'
    · by_cases hp : k = p.Name
      · subst hp
        rw [lookup_mapSet_self] at h'
        simp only [Option.some.injEq] at h'
        subst h'
        exact Or.inr ⟨le_refl _, by simp⟩
      · rw [lookup_mapSet_ne _ _ _ _ hp] at h'
        exact Or.inl h'
    · refine Or.inr ⟨by omega, ?_⟩
      obtain ⟨hle, hget⟩ := h'
      have : j - idx = (j - (idx + 1)) + 1 := by omega
      rw [this, List.get?_cons_succ]
      exact hget

theorem moduleIndex_isSome (ms : List Package) : ∀ (idx : Nat)
    (acc : List (String × Package) × List (String × Nat)) (k : String),
    ((indexModules idx ms acc).1.lookup k).isSome = ((indexModules idx ms acc).2.lookup k).isSome
      ∨ (acc.1.lookup k).isSome ≠ (acc.2.lookup k).isSome := by
  induction ms with
  | nil =>
    intro idx acc k
    simp only [indexModules]
    exact Decidable.em _
  | cons p ps ih =>
    intro idx acc k
    simp only [indexModules]
    rcases ih (idx + 1) (mapSet acc.1 p.Name p, mapSet acc.2 p.Name idx) k with h | h
    · exact Or.inl h
    · by_cases hp : k = p.Name
      · subst hp
        simp [lookup_mapSet_self] at h
      · simp only [lookup_mapSet_ne _ _ _ _ hp] at h
        exact Or.inr h

/-- The entry `moduleIndex[k]` of a name `k` held by `moduleMap` is the position
of a module named `k`. -/
theorem moduleIndex_name (ms : List Package) (k : String)
    (h : ((indexModules 0 ms ([], [])).1.lookup k).isSome = true) :
    (ms.get? (((indexModules 0 ms ([], [])).2.lookup k).getD 0)).map Package.Name = some k := by
  rcases moduleIndex_isSome ms 0 ([], []) k with h' | h'
  · rw [h] at h'
    obtain ⟨j, hj⟩ := Option.isSome_iff_exists.1 h'.symm
    rcases indexModules_index_name ms 0 ([], []) k j hj with h'' | h''
    · simp [List.lookup] at h''
    · rw [hj]
      simpa using h''.2
  · simp [List.lookup] at h'

theorem addRequires_attached (rs : List TreeComponent) (mm : List (String × Package))
    (ri : Nat) : ∀ (ms ms' : List Package),
    (∀ k c, mm.lookup k = some c → lastFields (ms.map Package.fields) k = some c.fields) →
    addRequires mm ri rs ms = some ms' →
    ∀ child ∈ rs, ∀ c, mm.lookup (getName child.Name) = some c →
      ∃ p', ms'.get? ri = some p' ∧
        p'.child (getName child.Name) = some (attachedCopy c.fields) := by
  induction rs with
  | nil => intro ms ms' _ _ child hchild; exact absurd hchild (List.not_mem_nil _)
  | cons t ts ih =>
    intro ms ms' hmm h child hchild c hc
    simp only [addRequires] at h
    split at h
    · rename_i hnone
      rcases List.mem_cons.1 hchild with rfl | hin
      · rw [hnone] at hc; exact absurd hc (by simp)
      · exact ih ms ms' hmm h child hin c hc
    · rename_i c0 hc0
      split at h
      · exact absurd h (by simp)
      · rename_i ms1 hsub
        split at h
        · exact absurd h (by simp)
        · rename_i r hr
          rw [addSubModuleToAModule_eq] at hsub
          split at hsub
          · rename_i f m hget
            simp only [Option.some.injEq] at hsub
            have h1 := hmm _ c0 hc0
            have h2 := (lastFields_name _ _ _ h1).2
            have hstep : Attach (ms.map Package.fields) ms ms1 :=
              ⟨ri, f, m, c0.fields.Name, c0.fields, hget, by rw [h2]; exact h1, hsub.symm⟩
            have hf1 := hstep.fields
            have hrec := assembly_steps.1 t ms1 r.1 r.2 (by rw [hr])
            rw [hf1] at hrec
            have hf2 : r.1.map Package.fields = ms.map Package.fields := by
              rw [steps_fields hrec, hf1]
            have hmm2 : ∀ k c, mm.lookup k = some c →
                lastFields (r.1.map Package.fields) k = some c.fields := by
              rw [hf2]; exact hmm
            rcases List.mem_cons.1 hchild with rfl | hin
            · rw [hc0] at hc
              simp only [Option.some.injEq] at hc
              subst hc
              have hrest := assembly_steps.2 ts mm ri r.1 ms' hmm2 h
              rw [hf2] at hrest
              have hall := hrec.trans hrest
              have hri : ri < ms.length := by
                simp only [List.get?_eq_getElem?] at hget
                exact (List.getElem?_eq_some_iff.1 hget).1
              have hget1 : ms1.get? ri = some (.mk f (some (mapSet m c0.fields.Name
                  (attachedCopy c0.fields)))) := by
                rw [← hsub]
                simp only [List.get?_eq_getElem?]
                exact List.getElem?_set_self hri
              have hlen : ms'.length = ms1.length := steps_length hall
              have hlen1 : ms1.length = ms.length := by
                simpa using congrArg List.length hf1
              obtain ⟨p', hp'⟩ : ∃ p', ms'.get? ri = some p' :=
                ⟨ms'.get ⟨ri, by rw [hlen, hlen1]; exact hri⟩, List.get?_eq_get _⟩
              refine ⟨p', hp', ?_⟩
              rcases steps_child hall ri _ p' (getName child.Name) hget1 hp' with hk | ⟨g, hg, hk⟩
              · rw [hk, ← h2]
                simp [Package.child, Package.Packages, lookup_mapSet_self]
              · rw [h1] at hg
                simp only [Option.some.injEq] at hg
                rw [hk, hg]
            · exact ih r.1 ms' hmm2 h child hin c hc
          · exact absurd hsub (by simp)

/-- Attach-a-copy, as the code does it: on a collection whose maps are all
allocated and for a tree whose root names a module, the assembly succeeds, and
a module named like the root then holds, for every direct child requirement
that names a module, the attached copy of the last module of that name: its
plain fields except `PackageDownloadLocation`, which is empty, and a nil map. -/
theorem attach_a_copy (t : TreeComponent) (modules : List Package) (hinit : AllInit modules)
    (hroot : getName t.Name ∈ modules.map Package.Name) :
    ∃ modules' b i root',
      addTreeComponentsToModule t modules = some (modules', b) ∧
      modules'.get? i = some root' ∧ root'.Name = getName t.Name ∧
      ∀ child ∈ t.Requires, ∀ g,
        lastFields (modules.map Package.fields) (getName child.Name) = some g →
          root'.child (getName child.Name) = some (attachedCopy g) := by
  obtain ⟨r, hr⟩ := assembly_total.1 t modules hinit
  have hsteps := assembly_steps.1 t modules r.1 r.2 (by rw [hr])
  have hsome := (moduleMap_isSome modules (getName t.Name)).2 hroot
  have hidx := moduleIndex_name modules _ hsome
  have hf := steps_fields hsteps
  have hlt := moduleIndex_lt modules _ hsome
  have hlen : r.1.length = modules.length := steps_length hsteps
  obtain ⟨root', hroot'⟩ : ∃ p, r.1.get?
      (((indexModules 0 modules ([], [])).2.lookup (getName t.Name)).getD 0) = some p :=
    ⟨r.1.get ⟨_, by rw [hlen]; exact hlt⟩, List.get?_eq_get _⟩
  have hname : root'.Name = getName t.Name := by
    have h1 : (r.1.map Package.Name).get?
        (((indexModules 0 modules ([], [])).2.lookup (getName t.Name)).getD 0)
        = some root'.Name := by
      simp only [List.get?_eq_getElem?, List.getElem?_map] at hroot' ⊢
      rw [hroot']; rfl
    rw [map_name_eq_of_fields hf] at h1
    simp only [List.get?_eq_getElem?, List.getElem?_map] at h1 hidx
    rw [hidx] at h1
    simpa using h1.symm
  refine ⟨r.1, r.2, _, root', hr, hroot', hname, ?_⟩
  intro child hchild g hg
  obtain ⟨n, rs⟩ := t
  simp only [TreeComponent.Requires] at hchild
  simp only [TreeComponent.Name] at hsome hroot'
  obtain ⟨c0, hc0⟩ := Option.isSome_iff_exists.1 hsome
  simp only [addTreeComponentsToModule, hc0] at hr
  have hne : rs.isEmpty = false := by
    cases rs with
    | nil => exact absurd hchild (List.not_mem_nil _)
    | cons _ _ => rfl
  simp only [hne, Bool.false_eq_true, if_false] at hr
  split at hr
  · exact absurd hr (by simp)
  · rename_i ms' hreq
    simp only [Option.some.injEq] at hr
    have hms : ms' = r.1 := by rw [← hr]
    subst hms
    obtain ⟨c, hc⟩ : ∃ c, (indexModules 0 modules ([], [])).1.lookup (getName child.Name)
        = some c := by
      apply Option.isSome_iff_exists.1
      rw [moduleMap_isSome]
      have := (lastFields_isSome (modules.map Package.fields) (getName child.Name)).1
        (by rw [hg]; rfl)
      simpa [List.map_map, Function.comp_def, Package.Name] using this
    obtain ⟨p', hp', hchild'⟩ := addRequires_attached rs _ _ modules r.1
      (fun k c hk => moduleMap_sound modules k c hk) hreq child hchild c hc
    rw [hroot'] at hp'
    simp only [Option.some.injEq] at hp'
    subst hp'
    have := moduleMap_sound modules _ c hc
    rw [hg] at this
    simp only [Option.some.injEq] at this
    rw [hchild', this]

/-- A run of `attach_a_copy` on `flat3`. -/
theorem attach_a_copy_flat3 :
    ∃ modules' b i root',
      addTreeComponentsToModule tree3 flat3 = some (modules', b) ∧
      modules'.get? i = some root' ∧ root'.Name = getName tree3.Name ∧
      ∀ child ∈ tree3.Requires, ∀ g,
        lastFields (flat3.map Package.fields) (getName child.Name) = some g →
          root'.child (getName child.Name) = some (attachedCopy g) :=
  attach_a_copy tree3 flat3 (by decide) (by decide)

end composer

/-! ## The identity and version normaliser of `composer` -/

namespace strings

theorem splitChars_of_not_mem (sep : Char) (l : List Char) (h : sep ∉ l) :
    splitChars sep l = [l] := by
  induction l with
  | nil => rfl
  | cons c cs ih =>
    have hc : c ≠ sep := fun e => h (e ▸ List.mem_cons_self _ _)
    have hcs : sep ∉ cs := fun hm => h (List.mem_cons_of_mem _ hm)
    simp [splitChars, hc, ih hcs]

theorem splitChars_not_mem (sep : Char) (l : List Char) :
    ∀ p ∈ splitChars sep l, sep ∉ p := by
  induction l with
  | nil => intro p hp; simp [splitChars] at hp; subst hp; exact List.not_mem_nil _
  | cons c cs ih =>
    intro p hp
    simp only [splitChars] at hp
    by_cases hc : c = sep
    · simp only [hc, if_true, List.mem_cons] at hp
      rcases hp with rfl | hp
      · exact List.not_mem_nil _
      · exact ih p hp
    · simp only [hc, if_false] at hp
      cases hs : splitChars sep cs with
      | nil => exact absurd hs (splitChars_ne_nil sep cs)
      | cons q qs =>
        rw [hs] at hp ih
        simp only [List.mem_cons] at hp
        rcases hp with rfl | hp
        · intro hm
          rcases List.mem_cons.1 hm with e | hm
          · exact hc e.symm
          · exact ih q (List.mem_cons_self _ _) hm
        · exact ih p (List.mem_cons_of_mem _ hp)

theorem splitChars_append_sep (sep : Char) (a rest : List Char) (h : sep ∉ a) :
    splitChars sep (a ++ sep :: rest) = a :: splitChars sep rest := by
  induction a with
  | nil => simp [splitChars]
  | cons c cs ih =>
    have hc : c ≠ sep := fun e => h (e ▸ List.mem_cons_self _ _)
    have hcs : sep ∉ cs := fun hm => h (List.mem_cons_of_mem _ hm)
    simp [splitChars, hc, ih hcs]

end strings

namespace composer

theorem getName_of_not_mem (s : String) (h : '/' ∉ s.data) : getName s = s := by
  simp [getName, strings.Split, strings.splitChars_of_not_mem _ _ h]

theorem getName_second (s : String) (a rest : List Char) (hs : s.data = a ++ '/' :: rest)
    (ha : '/' ∉ a) : getName s = String.mk (rest.takeWhile (fun c => c ≠ '/')) := by
  have hhead := strings.splitChars_head '/' rest
  cases hr : strings.splitChars '/' rest with
  | nil => exact absurd hr (strings.splitChars_ne_nil _ _)
  | cons p ps =>
    rw [hr] at hhead
    simp only [List.getD_cons_zero] at hhead
    simp [getName, strings.Split, hs, strings.splitChars_append_sep _ _ _ ha, hr, hhead]

theorem getName_no_slash (s : String) : '/' ∉ (getName s).data := by
  have hmem := strings.splitChars_not_mem '/' s.data
  cases hs : strings.splitChars '/' s.data with
  | nil => exact absurd hs (strings.splitChars_ne_nil _ _)
  | cons p ps =>
    rw [hs] at hmem
    cases ps with
    | nil =>
      have : getName s = String.mk p := by simp [getName, strings.Split, hs]
      rw [this]
      exact hmem p (List.mem_cons_self _ _)
    | cons q qs =>
      have : getName s = String.mk q := by simp [getName, strings.Split, hs]
      rw [this]
      exact hmem q (List.mem_cons_of_mem _ (List.mem_cons_self _ _))

theorem normalizePackageVersion_of_not_mem (v : String) (h : 'v' ∉ v.data) :
    normalizePackageVersion v = v := by
  simp [normalizePackageVersion, strings.Split, strings.splitChars_of_not_mem _ _ h]

theorem normalizePackageVersion_cases (v : String) :
    normalizePackageVersion v = v ∨ 'v' ∉ (normalizePackageVersion v).data := by
  have hmem := strings.splitChars_not_mem 'v' v.data
  cases hs : strings.splitChars 'v' v.data with
  | nil => exact absurd hs (strings.splitChars_ne_nil _ _)
  | cons p ps =>
    rw [hs] at hmem
    by_cases hp : String.mk p = ""
    · right
      cases ps with
      | nil =>
        have : normalizePackageVersion v = String.mk p := by
          simp [normalizePackageVersion, strings.Split, hs, hp]
        rw [this]
        exact hmem p (List.mem_cons_self _ _)
      | cons q qs =>
        have : normalizePackageVersion v = String.mk q := by
          simp [normalizePackageVersion, strings.Split, hs, hp]
        rw [this]
        exact hmem q (List.mem_cons_of_mem _ (List.mem_cons_self _ _))
    · left
      simp [normalizePackageVersion, strings.Split, hs, hp]

end composer

namespace composer

theorem normalizePackageVersion_unchanged (version : String)
    (h : ∀ rest : List Char, version.data ≠ 'v' :: rest) :
    normalizePackageVersion version = version := by
  obtain ⟨l⟩ := version
  cases l with
  | nil => rfl
  | cons c cs =>
    have hc : c ≠ 'v' := fun e => h cs (by simp [e])
    have hhead := strings.splitChars_head 'v' (c :: cs)
    cases hs : strings.splitChars 'v' (c :: cs) with
    | nil => exact absurd hs (strings.splitChars_ne_nil _ _)
    | cons p ps =>
      rw [hs] at hhead
      simp only [List.getD_cons_zero, List.takeWhile, hc, ne_eq, not_false_eq_true,
        decide_True] at hhead
      have hne : String.mk p ≠ "" := by
        intro e
        have e' := congrArg String.data e
        rw [hhead] at e'
        exact absurd e' (List.cons_ne_nil _ _)
      simp [normalizePackageVersion, strings.Split, hs, hne]

/-- C11, as stated, fails: `1.0.0-vNext` does not begin with `v`, so the portion
before its first `v` is not empty and the version is returned as it is. -/
theorem vNext_is_returned_unchanged :
    normalizePackageVersion "1.0.0-vNext" = "1.0.0-vNext" ∧
      strings.Split "1.0.0-vNext" 'v' = ["1.0.0-", "Next"] := by
  decide

/-- C11, amended: the result differs from the input only for a version that
begins with `v`; so `1.0.0-vNext` is returned unchanged, and the split on every
`v` shows on `v1.0.0-vNext`, which gives `1.0.0-`. -/
theorem non_identity_needs_leading_v :
    (∀ version : String, normalizePackageVersion version ≠ version →
      ∃ rest : List Char, version.data = 'v' :: rest) ∧
    (∀ version : String, (∀ rest : List Char, version.data ≠ 'v' :: rest) →
      normalizePackageVersion version = version) ∧
    normalizePackageVersion "v1.0.0-vNext" = "1.0.0-" := by
  refine ⟨?_, normalizePackageVersion_unchanged, by decide⟩
  intro version hne
  by_contra hno
  exact hne (normalizePackageVersion_unchanged version
    (fun rest hr => hno ⟨rest, hr⟩))

/-- Witness of C11 amended: `v1.0.0-vNext` is changed and begins with `v`;
`1.0.0-vNext` does not begin with `v` and is unchanged. -/
theorem non_identity_needs_leading_v_witness :
    (∃ rest : List Char, "v1.0.0-vNext".data = 'v' :: rest) ∧
      normalizePackageVersion "1.0.0-vNext" = "1.0.0-vNext" :=
  ⟨non_identity_needs_leading_v.1 "v1.0.0-vNext" (by decide),
   non_identity_needs_leading_v.2.1 "1.0.0-vNext" (fun _ h =>
     (by decide : "1.0.0-vNext".data.head? ≠ some 'v') (congrArg List.head? h))⟩

/-- C12: normalising a second time changes nothing, for names and for versions. -/
theorem normalization_idempotent :
    (∀ s : String, getName (getName s) = getName s) ∧
      (∀ v : String, normalizePackageVersion (normalizePackageVersion v)
        = normalizePackageVersion v) := by
  constructor
  · intro s
    exact getName_of_not_mem _ (getName_no_slash s)
  · intro v
    rcases normalizePackageVersion_cases v with h | h
    · rw [h, h]
    · exact normalizePackageVersion_of_not_mem _ h

/-- C13: `getName` is a total function; for a name with a `/` it gives the
segment between the first `/` and the next `/` (or the end), that is the second
segment, and a name without `/` is given back as it is. -/
theorem getName_second_segment (s : String) :
    ('/' ∈ s.data → ∃ a rest : List Char, s.data = a ++ '/' :: rest ∧ '/' ∉ a ∧
      getName s = String.mk (rest.takeWhile (fun c => c ≠ '/'))) ∧
    (∀ a rest : List Char, s.data = a ++ '/' :: rest → '/' ∉ a →
      getName s = String.mk (rest.takeWhile (fun c => c ≠ '/'))) ∧
    ('/' ∉ s.data → getName s = s) := by
  refine ⟨?_, fun a rest hs ha => getName_second s a rest hs ha, getName_of_not_mem s⟩
  intro hmem
  obtain ⟨a, rest, hs, ha⟩ := List.eq_append_cons_of_mem hmem
  exact ⟨a, rest, hs, ha, getName_second s a rest hs ha⟩

/-- Witness of C13: `group/pkg` gives `pkg`, `a/b/c` gives `b`, `pkg` gives `pkg`. -/
theorem getName_second_segment_witness :
    getName "group/pkg" = "pkg" ∧ getName "a/b/c" = "b" ∧ getName "pkg" = "pkg" :=
  ⟨(getName_second_segment "group/pkg").2.1 "group".data "pkg".data (by decide) (by decide),
   (getName_second_segment "a/b/c").2.1 "a".data "b/c".data (by decide) (by decide),
   (getName_second_segment "pkg").2.2 (by decide)⟩

end composer

/-! ## The locator resolver of `composer` -/

namespace composer

open meta

theorem rootPackageDownloadLocation_eq (packageJSON : PackageJSONObject) (defaultValue : String) :
    rootPackageDownloadLocation packageJSON defaultValue =
      if (strings.Contains (chosenLocator packageJSON defaultValue) "github.com/" &&
          !strings.Contains (chosenLocator packageJSON defaultValue) ".git") = true
      then protocolQualified (chosenLocator packageJSON defaultValue) ++ ".git"
      else protocolQualified (chosenLocator packageJSON defaultValue) := by
  simp only [rootPackageDownloadLocation, chosenLocator, protocolQualified]
  by_cases hu : packageJSON.Repository.URL = ""
  · simp only [hu, if_true]
    cases strings.Contains defaultValue "http" <;> rfl
  · simp only [hu, if_false]
    cases strings.Contains packageJSON.Repository.URL "http" <;> rfl

theorem data_ne_nil_of_infix {sub l : List Char} (h : sub <:+: l) (hs : sub ≠ []) : l ≠ [] := by
  rintro rfl
  exact hs (List.infix_nil.1 h)

theorem append_ne_empty_left (a b : String) (ha : 0 < a.length) : a ++ b ≠ "" := by
  intro e
  have := congrArg String.length e
  rw [String.length_append] at this
  have h0 : "".length = 0 := rfl
  omega

theorem append_git_ne_empty (s : String) : s ++ ".git" ≠ "" := by
  intro e
  have := congrArg String.length e
  rw [String.length_append] at this
  have h0 : "".length = 0 := rfl
  have h4 : ".git".length = 4 := rfl
  omega

theorem append_git_ne_self (s : String) : s ++ ".git" ≠ s := by
  intro e
  have := congrArg String.length e
  rw [String.length_append] at this
  have h4 : ".git".length = 4 := rfl
  omega

theorem protocolQualified_ne_empty (s : String) : protocolQualified s ≠ "" := by
  unfold protocolQualified
  by_cases h : strings.Contains s "http" = true
  · simp only [h, if_true]
    intro e
    have hin := (strings.Contains_iff _ _).1 h
    rw [e] at hin
    exact absurd (List.infix_nil.1 hin) (by decide)
  · simp only [h]
    exact append_ne_empty_left _ _ (by decide)

theorem rootPackageDownloadLocation_ne_empty (packageJSON : PackageJSONObject)
    (defaultValue : String) : rootPackageDownloadLocation packageJSON defaultValue ≠ "" := by
  rw [rootPackageDownloadLocation_eq]
  split
  · exact append_git_ne_empty _
  · exact protocolQualified_ne_empty _

/-- The download location of the root project never reads the homepage of
`composer.json`: it is `rootPackageDownloadLocation` of the synthesized URL. -/
theorem root_download_location_ignores_homepage (helper : Helper)
    (packageJSON : PackageJSONObject) (composerJSON : JSONObject) (project : ProjectInfo)
    (path : String) (version0 : String) (rest : List String)
    (hv : project.Versions = version0 :: rest) :
    (convertProjectInfoToModule helper packageJSON composerJSON project path).map
        (fun p => p.fields.PackageDownloadLocation)
      = some (rootPackageDownloadLocation packageJSON (genComposerURL project.Name)) := by
  have hne : genComposerURL project.Name ≠ "" :=
    append_ne_empty_left _ _ (by decide)
  simp only [convertProjectInfoToModule, hv, hne, if_false, Option.map_some', Package.fields]
  cases helper.GetLicenses path <;> rfl

theorem rootPackageDownloadLocation_chosen (packageJSON : PackageJSONObject)
    (defaultValue : String) :
    rootPackageDownloadLocation packageJSON defaultValue
      = rootPackageDownloadLocation {} (chosenLocator packageJSON defaultValue) := by
  have h : chosenLocator {} (chosenLocator packageJSON defaultValue)
      = chosenLocator packageJSON defaultValue := rfl
  rw [rootPackageDownloadLocation_eq, rootPackageDownloadLocation_eq {}, h]

/-- C14, the code at the failing input: `package.json` names no repository and
`composer.json` has the homepage `https://example.org/pkg`; the download
location of the root project `org/pkg` is the canonicalized synthesized URL
`https://github.com/org/pkg.git`, where the claim has the canonicalized
homepage `https://example.org/pkg`. The branch of `convertProjectInfoToModule`
that reads the homepage is never taken, `genComposerURL` being never empty. -/
theorem homepage_never_chosen :
    (convertProjectInfoToModule noLicense {} homepageOnly orgPkg ".").map
        (fun p => p.fields.PackageDownloadLocation) = some "https://github.com/org/pkg.git" ∧
      (convertProjectInfoToModule noLicense {} homepageOnly orgPkg ".").map
        (fun p => p.fields.PackageURL) = some "github.com/org/pkg" ∧
      homepageOnly.Homepage = "https://example.org/pkg" ∧
      rootPackageDownloadLocation {} homepageOnly.Homepage = "https://example.org/pkg" := by
  decide

/-- What `convertProjectInfoToModule` computes as it stands: the download
location of the root project is the canonicalization
(`rootPackageDownloadLocation` with an empty `package.json`) of the repository
URL when that is not empty, and of the synthesized `github.com/` followed by
the project name otherwise; no homepage of `composer.json` changes it. -/
theorem root_locator_priority (helper : Helper) (packageJSON : PackageJSONObject)
    (composerJSON : JSONObject) (project : ProjectInfo) (path : String) (version0 : String)
    (rest : List String) (hv : project.Versions = version0 :: rest) :
    (packageJSON.Repository.URL ≠ "" →
      (convertProjectInfoToModule helper packageJSON composerJSON project path).map
          (fun p => p.fields.PackageDownloadLocation)
        = some (rootPackageDownloadLocation {} packageJSON.Repository.URL)) ∧
    (packageJSON.Repository.URL = "" →
      (convertProjectInfoToModule helper packageJSON composerJSON project path).map
          (fun p => p.fields.PackageDownloadLocation)
        = some (rootPackageDownloadLocation {} ("github.com/" ++ project.Name))) := by
  rw [root_download_location_ignores_homepage helper packageJSON composerJSON project path
    version0 rest hv, rootPackageDownloadLocation_chosen]
  constructor
  · intro h
    simp [chosenLocator, h]
  · intro h
    simp [chosenLocator, h, genComposerURL]

/-- The root project `org/pkg` with a homepage and no repository URL, as an
instance of `root_locator_priority`. -/
theorem root_locator_priority_witness :
    (convertProjectInfoToModule noLicense {} homepageOnly orgPkg ".").map
        (fun p => p.fields.PackageDownloadLocation)
      = some (rootPackageDownloadLocation {} ("github.com/" ++ orgPkg.Name)) :=
  (root_locator_priority noLicense {} homepageOnly orgPkg "." "v1.0.0" [] rfl).2 rfl

/-- C15: with `s` the chosen locator, a locator without `http` gets `https://`
in front, followed at most by `.git`; a locator with `http` gets nothing in
front; and a locator with `github.com/`, without `http` and without `.git`
becomes `https://` followed by `s` and `.git`. -/
theorem protocol_canonicalization (packageJSON : PackageJSONObject) (defaultValue : String) :
    (¬ "http".data <:+: (chosenLocator packageJSON defaultValue).data →
      rootPackageDownloadLocation packageJSON defaultValue
          = "https://" ++ chosenLocator packageJSON defaultValue ∨
        rootPackageDownloadLocation packageJSON defaultValue
          = "https://" ++ chosenLocator packageJSON defaultValue ++ ".git") ∧
    ("http".data <:+: (chosenLocator packageJSON defaultValue).data →
      rootPackageDownloadLocation packageJSON defaultValue
          = chosenLocator packageJSON defaultValue ∨
        rootPackageDownloadLocation packageJSON defaultValue
          = chosenLocator packageJSON defaultValue ++ ".git") ∧
    ("github.com/".data <:+: (chosenLocator packageJSON defaultValue).data →
      ¬ "http".data <:+: (chosenLocator packageJSON defaultValue).data →
      ¬ ".git".data <:+: (chosenLocator packageJSON defaultValue).data →
      rootPackageDownloadLocation packageJSON defaultValue
        = "https://" ++ chosenLocator packageJSON defaultValue ++ ".git") := by
  have e1 := strings.Contains_iff (chosenLocator packageJSON defaultValue) "http"
  have e2 := strings.Contains_iff (chosenLocator packageJSON defaultValue) "github.com/"
  have e3 := strings.Contains_iff (chosenLocator packageJSON defaultValue) ".git"
  rw [← e1, ← e2, ← e3, rootPackageDownloadLocation_eq]
  unfold protocolQualified
  cases strings.Contains (chosenLocator packageJSON defaultValue) "http" <;>
    cases strings.Contains (chosenLocator packageJSON defaultValue) "github.com/" <;>
    cases strings.Contains (chosenLocator packageJSON defaultValue) ".git" <;>
    simp

/-- Witness of C15: the bare locator `github.com/org/pkg`. -/
theorem protocol_canonicalization_witness :
    rootPackageDownloadLocation {} "github.com/org/pkg"
      = "https://" ++ chosenLocator {} "github.com/org/pkg" ++ ".git" :=
  (protocol_canonicalization {} "github.com/org/pkg").2.2
    ((strings.Contains_iff _ _).1 (by decide))
    (fun h => absurd ((strings.Contains_iff _ _).2 h) (by decide))
    (fun h => absurd ((strings.Contains_iff _ _).2 h) (by decide))

/-- C16, the code at the failing input: `https://github.com/org/repo.github.io`
is on the host `github.com` and does not end in `.git`, yet the result is the
locator itself, without `.git` at its end: `hasGitSuffix` is computed with
`strings.Contains`, and the locator contains `.git` inside `.github.io`. -/
theorem git_suffix_not_by_host_and_ending :
    rootPackageDownloadLocation {} "https://github.com/org/repo.github.io"
        = "https://github.com/org/repo.github.io" ∧
      "https://github.com/".data.isPrefixOf "https://github.com/org/repo.github.io".data = true ∧
      ".git".data.isSuffixOf "https://github.com/org/repo.github.io".data = false ∧
      strings.Contains "https://github.com/org/repo.github.io" ".git" = true ∧
      ".git".data.isSuffixOf
        (rootPackageDownloadLocation {} "https://github.com/org/repo.github.io").data = false ∧
      rootPackageDownloadLocation
          { Repository := { URL := "https://github.com/org/repo.github.io" } } "github.com/x"
        = "https://github.com/org/repo.github.io" := by
  decide

/-- The test for github is a substring test as well: the locator
`https://example.org/github.com/x` is on another host and gets `.git`. -/
theorem github_path_on_other_host :
    rootPackageDownloadLocation {} "https://example.org/github.com/x"
        = "https://example.org/github.com/x.git" ∧
      "https://example.org/".data.isPrefixOf "https://example.org/github.com/x".data = true := by
  decide

/-- What `rootPackageDownloadLocation` computes as it stands, with `s` the chosen
locator: `.git` is appended exactly when `s` contains `github.com/` and the
test named `hasGitSuffix`, a substring test, finds no `.git` in `s`; so a
locator with `github.com/` and without any `.git` gives a result ending in
`.git`, and a locator with `http` and without `github.com/` is returned
unchanged. -/
theorem git_suffix_rule (packageJSON : PackageJSONObject) (defaultValue : String) :
    (rootPackageDownloadLocation packageJSON defaultValue
        = protocolQualified (chosenLocator packageJSON defaultValue) ++ ".git" ↔
      "github.com/".data <:+: (chosenLocator packageJSON defaultValue).data ∧
        ¬ ".git".data <:+: (chosenLocator packageJSON defaultValue).data) ∧
    (rootPackageDownloadLocation packageJSON defaultValue
        = protocolQualified (chosenLocator packageJSON defaultValue) ↔
      ¬ ("github.com/".data <:+: (chosenLocator packageJSON defaultValue).data ∧
        ¬ ".git".data <:+: (chosenLocator packageJSON defaultValue).data)) ∧
    ("github.com/".data <:+: (chosenLocator packageJSON defaultValue).data →
      ¬ ".git".data <:+: (chosenLocator packageJSON defaultValue).data →
      ".git".data <:+ (rootPackageDownloadLocation packageJSON defaultValue).data) ∧
    ("http".data <:+: (chosenLocator packageJSON defaultValue).data →
      ¬ "github.com/".data <:+: (chosenLocator packageJSON defaultValue).data →
      rootPackageDownloadLocation packageJSON defaultValue
        = chosenLocator packageJSON defaultValue) := by
  have e1 := strings.Contains_iff (chosenLocator packageJSON defaultValue) "http"
  have e2 := strings.Contains_iff (chosenLocator packageJSON defaultValue) "github.com/"
  have e3 := strings.Contains_iff (chosenLocator packageJSON defaultValue) ".git"
  have hsuf : ".git".data <:+
      (protocolQualified (chosenLocator packageJSON defaultValue) ++ ".git").data :=
    ⟨(protocolQualified (chosenLocator packageJSON defaultValue)).data, by
      rw [String.data_append]⟩
  rw [← e1, ← e2, ← e3, rootPackageDownloadLocation_eq]
  have hq : strings.Contains (chosenLocator packageJSON defaultValue) "http" = true →
      protocolQualified (chosenLocator packageJSON defaultValue)
        = chosenLocator packageJSON defaultValue := by
    intro h
    simp [protocolQualified, h]
  have hself := append_git_ne_self (protocolQualified (chosenLocator packageJSON defaultValue))
  cases h2 : strings.Contains (chosenLocator packageJSON defaultValue) "github.com/" <;>
    cases h3 : strings.Contains (chosenLocator packageJSON defaultValue) ".git" <;>
    simp [hself, hself.symm, hsuf] <;> exact hq

/-- Instances of `git_suffix_rule`: a github locator without `.git` gets the
suffix, and a homepage on another host that carries `https://` is returned
unchanged. -/
theorem git_suffix_rule_witness :
    ".git".data <:+ (rootPackageDownloadLocation {} "github.com/org/pkg").data ∧
      rootPackageDownloadLocation {} "https://example.org/pkg"
        = chosenLocator {} "https://example.org/pkg" :=
  ⟨(git_suffix_rule {} "github.com/org/pkg").2.2.1
      ((strings.Contains_iff _ _).1 (by decide))
      (fun h => absurd ((strings.Contains_iff _ _).2 h) (by decide)),
   (git_suffix_rule {} "https://example.org/pkg").2.2.2
      ((strings.Contains_iff _ _).1 (by decide))
      (fun h => absurd ((strings.Contains_iff _ _).2 h) (by decide))⟩

/-- C17, as stated, fails: with an empty repository URL and an empty default
value the result is `https://`, not the empty string. -/
theorem empty_locator_gets_protocol :
    rootPackageDownloadLocation {} "" = "https://" ∧
      rootPackageDownloadLocation {} "" ≠ "" := by
  decide

/-- C17, amended: the result is never empty, so in particular not when the
repository URL or the default value is non-empty; when both are empty the
result is `https://`. -/
theorem locator_never_empty (packageJSON : PackageJSONObject) (defaultValue : String) :
    (packageJSON.Repository.URL ≠ "" ∨ defaultValue ≠ "" →
      rootPackageDownloadLocation packageJSON defaultValue ≠ "") ∧
    rootPackageDownloadLocation packageJSON defaultValue ≠ "" ∧
    (packageJSON.Repository.URL = "" → defaultValue = "" →
      rootPackageDownloadLocation packageJSON defaultValue = "https://") := by
  refine ⟨fun _ => rootPackageDownloadLocation_ne_empty _ _,
    rootPackageDownloadLocation_ne_empty _ _, ?_⟩
  intro hu hd
  obtain ⟨⟨u⟩⟩ := packageJSON
  simp only at hu
  subst hu hd
  decide

/-- Witness of C17 amended. -/
theorem locator_never_empty_witness :
    rootPackageDownloadLocation {} "example.org/pkg" ≠ "" ∧
      rootPackageDownloadLocation {} "" = "https://" :=
  ⟨(locator_never_empty {} "example.org/pkg").1 (Or.inr (by decide)),
   (locator_never_empty {} "").2.2 (by decide) (by decide)⟩

/-- The supplier taken from a lock package has the type `Person` or
`Organization`, and so has the supplier of a root project whose
`composer.json` lists an author. -/
theorem supplier_type_set (dep : LockPackage) (composerJSON : JSONObject) (projectName : String)
    (author : Author) (rest : List Author) (ha : composerJSON.Authors = author :: rest) :
    ((getAuthorFromComposerLockFileDep dep).Type' = Person ∨
      (getAuthorFromComposerLockFileDep dep).Type' = Organization) ∧
    (rootProjectSupplier composerJSON projectName).Type' = Person := by
  constructor
  · unfold getAuthorFromComposerLockFileDep
    cases dep.Authors with
    | nil => exact Or.inr rfl
    | cons a as =>
      simp only
      split
      · exact Or.inr rfl
      · exact Or.inl rfl
  · simp [rootProjectSupplier, ha]

/-- C19, the code at the failing input: for a `composer.json` without authors the
supplier of the root project has an empty `Type`, neither `Person` nor
`Organization`. -/
theorem root_supplier_without_type :
    rootProjectSupplier {} "pkg" = { Name := "pkg", Email := "", Type' := "" } ∧
      (rootProjectSupplier {} "pkg").Type' ≠ Person ∧
      (rootProjectSupplier {} "pkg").Type' ≠ Organization ∧
      (getAuthorFromComposerLockFileDep { Name := "org/pkg" }).Type' = Organization := by
  decide

end composer

/-! ## The artifact selector once more: no match, and the shared choice -/

namespace worker

theorem loops_no_match (info : PypiPackageInfo) (metadata : Metadata)
    (urls : List PypiPackageDistInfo)
    (h : ∀ x ∈ urls, binaryRule metadata x = false ∧ sourceRule x = false) :
    GetDownloadLocationFromPyPiPackageData { Info := info, Urls := urls } metadata = "" ∧
      GetChecksumeFromPyPiPackageData { Info := info, Urls := urls } metadata
        = { Algorithm := meta.HashAlgoSHA1, Content := bytes info.Name, Value := "" } := by
  simp only [GetDownloadLocationFromPyPiPackageData, GetChecksumeFromPyPiPackageData]
  induction urls with
  | nil => exact ⟨rfl, rfl⟩
  | cons x xs ih =>
    have hx := h x (List.mem_cons_self _ _)
    simp only [binaryRule, sourceRule] at hx
    simp only [downloadLoop, checksumLoop, hx.1, hx.2]
    exact ih (fun y hy => h y (List.mem_cons_of_mem _ hy))

theorem sourceRule_iff (d : PypiPackageDistInfo) :
    sourceRule d = true ↔
      strings.EqualFold d.PackageType "sdist" = true ∧
        strings.EqualFold d.PythonVersion "source" = true := by
  simp only [sourceRule, GetPackageSDistInfo]
  cases strings.EqualFold d.PackageType "sdist" <;>
    cases strings.EqualFold d.PythonVersion "source" <;> simp

/-- C18: when no artifact satisfies the binary rule and none has the package
type `sdist` and the interpreter `source` up to case, the download location is
the empty string and the checksum is the default one: algorithm SHA1, content
the bytes of `Info.Name`, empty value. Both functions are total, and an empty
`Urls` is such a case. -/
theorem no_artifact_selected (pkgData : PypiPackageData) (metadata : Metadata)
    (hbin : ∀ u ∈ pkgData.Urls,
      (GetPackageBDistWheelInfo u metadata.Generator metadata.Tag metadata.CPVersion).2 = false)
    (hsrc : ∀ u ∈ pkgData.Urls,
      ¬ (strings.EqualFold u.PackageType "sdist" = true ∧
        strings.EqualFold u.PythonVersion "source" = true)) :
    GetDownloadLocationFromPyPiPackageData pkgData metadata = "" ∧
      GetChecksumeFromPyPiPackageData pkgData metadata
        = { Algorithm := meta.HashAlgoSHA1, Content := bytes pkgData.Info.Name, Value := "" } := by
  obtain ⟨info, urls⟩ := pkgData
  refine loops_no_match info metadata urls (fun x hx => ⟨hbin x hx, ?_⟩)
  cases hs : sourceRule x with
  | false => rfl
  | true => exact absurd ((sourceRule_iff x).1 hs) (hsrc x hx)

/-- Witness of C18: a release with a single egg, and a release without artifacts. -/
theorem no_artifact_selected_witness :
    (GetDownloadLocationFromPyPiPackageData
        { Info := { Name := "demo" }
          Urls := [{ PackageType := "bdist_egg", PythonVersion := "2.7", URL := "egg" }] }
        cp39 = "" ∧
      GetChecksumeFromPyPiPackageData
        { Info := { Name := "demo" }
          Urls := [{ PackageType := "bdist_egg", PythonVersion := "2.7", URL := "egg" }] }
        cp39 = { Algorithm := meta.HashAlgoSHA1, Content := bytes "demo", Value := "" }) ∧
    GetDownloadLocationFromPyPiPackageData { Info := { Name := "demo" }, Urls := [] } cp39
      = "" :=
  ⟨no_artifact_selected
      { Info := { Name := "demo" }
        Urls := [{ PackageType := "bdist_egg", PythonVersion := "2.7", URL := "egg" }] }
      cp39 (by decide) (by decide),
   (no_artifact_selected { Info := { Name := "demo" }, Urls := [] } cp39
      (by decide) (by decide)).1⟩

/-- C20: when `u` is the first artifact of `Urls` that satisfies the binary rule
or the source rule, the download location is `u.URL` and the checksum has the
algorithm and value of `GetHighestOrderHashData u.Digests` and the bytes of
`Info.Name` as content: both functions read the same artifact. -/
theorem checksum_and_location_same_artifact (pkgData : PypiPackageData) (metadata : Metadata)
    (u : PypiPackageDistInfo)
    (hu : pkgData.Urls.find? (fun d => binaryRule metadata d || sourceRule d) = some u) :
    GetDownloadLocationFromPyPiPackageData pkgData metadata = u.URL ∧
      GetChecksumeFromPyPiPackageData pkgData metadata
        = { Algorithm := (GetHighestOrderHashData u.Digests).1
            Content := bytes pkgData.Info.Name
            Value := (GetHighestOrderHashData u.Digests).2 } := by
  obtain ⟨info, urls⟩ := pkgData
  obtain ⟨hp, pre, post, hsplit, hpre⟩ := List.find?_eq_some.1 hu
  simp only at hsplit
  subst hsplit
  refine loops_first_match info metadata pre post u (fun x hx => ?_) (by simpa using hp)
  have := hpre x hx
  simpa using this

/-- Witness of C20: in `sdistFirst` the first matching artifact is the source
archive; location and digest are both its own. -/
theorem checksum_and_location_same_artifact_witness :
    GetDownloadLocationFromPyPiPackageData sdistFirst cp39
        = "https://files.example.org/demo-1.0.tar.gz" ∧
      GetChecksumeFromPyPiPackageData sdistFirst cp39
        = { Algorithm := meta.HashAlgoSHA256, Content := bytes "demo", Value := "0b" } :=
  checksum_and_location_same_artifact sdistFirst cp39
    { PackageType := "sdist", PythonVersion := "source", Filename := "demo-1.0.tar.gz"
      URL := "https://files.example.org/demo-1.0.tar.gz"
      Digests := { MD5 := "0a", SHA256 := "0b" } } (by decide)

end worker
